import Mathlib

/-!
# Verification of the `medoids` clustering library

Shallow embedding of `medoids.py` (k-medoids clustering) and proofs about it.

The source is a small Python module with four functions:

* `build_distances(points, distance)` — eagerly builds the dict-of-dict cache
  `dists[p][q] = dists[q][p] = distance(p, q)`;
* `k_medoids(points, k, dists, iteration)` — one randomized k-medoids run:
  sample `k` initial kernels, then alternate ASSIGN / PRUNE / ELECT until the
  kernels stop changing or the iteration budget runs out, and return
  `(diameter, medoids)`;
* `k_medoids_iterspawn(points, k, dists, spawn, iteration)` — run `k_medoids`
  `spawn` times and keep the run with the smallest diameter (Python `min` with
  `key=itemgetter(0)`: first run wins ties);
* `k_medoids_iterall(points, diam_max, dists, spawn, iteration)` — raise on an
  empty input, then try k = 1, 2, …, n, stopping at the first k whose spawn
  result has diameter ≤ `diam_max` (after k = n the loop simply ends and the
  last result is returned).

Modelling conventions:

* distance values live in an arbitrary linearly ordered additive commutative
  monoid `Q` (the Python code only compares, adds and zero-checks them; `ℚ`,
  `ℝ` and `ℤ` are instances);
* Python exceptions (`ValueError` from `random.sample` on a negative size,
  from `min()` / `max()` on an empty sequence, and the explicit
  `raise ValueError('No points given!')`) are modelled by `Option`: a raising
  call is `none`;
* the only impure ingredient, `random.sample(points, k)`, is modelled by an
  explicit `sample` argument; `ValidSample points k sample` is exactly the
  contract of `random.sample(points, min k n)` — the sample is drawn from `k`
  (clamped to `n`, source lines 107–108) distinct *positions* of `points`, so
  it is a sub-multiset of `points` of that size (its values need not be
  distinct when `points` has duplicates);
* Python `min(xs, key=f)` keeps the current best unless a *strictly* smaller
  key appears, hence returns the first element attaining the minimal key;
  `pyMinBy` reproduces this fold exactly.
-/

namespace Medoids

/-- Structure `Medoid(kernel, elements)` from the source: a cluster represented by one
of its own members. -/
structure Medoid (α : Type) where
  kernel : α
  elements : List α
deriving DecidableEq, Repr

variable {α : Type} [DecidableEq α] {β : Type} {Q : Type}
variable [LinearOrderedAddCommMonoid Q]

/-- Python `min(x :: xs, key=f)`: fold keeping the current best unless a
strictly smaller key appears, so the first element attaining the minimal key
is returned. -/
def pyMinBy (f : β → Q) (x : β) (xs : List β) : β :=
  xs.foldl (fun b y => if f y < f b then y else b) x

/-- Minimum of a nonempty list of rationals, as a fold (used for the key value
of Python `min`). -/
def foldlMin (v : Q) (l : List Q) : Q :=
  l.foldl min v

/-- Maximum of a nonempty list of rationals, as a fold (Python `max` over a
nonempty generator). -/
def foldlMax (v : Q) (l : List Q) : Q :=
  l.foldl max v

/-- Index of the first element of the list whose key equals `v` (length of the
list if there is none). -/
def firstIdxEq (f : Medoid α → Q) (v : Q) : List (Medoid α) → ℕ
  | [] => 0
  | m :: ms => if f m = v then 0 else firstIdxEq f v ms + 1

/-- The call `min(medoids, key=lambda m: dists[p][m.kernel])`, source line 122, as an
index: the first medoid (in the current medoid order) whose kernel is at
minimal distance from `p`. -/
def closestIdx (dists : α → α → Q) (p : α) : List (Medoid α) → ℕ
  | [] => 0
  | m :: ms =>
      firstIdxEq (fun m2 => dists p m2.kernel)
        (foldlMin (dists p m.kernel) (ms.map fun m2 => dists p m2.kernel)) (m :: ms)

/-- ASSIGN body, source lines 116–123: after the reset, medoid number `i + j`
(where `j` is its position in the suffix being processed and `ms0` is the full
medoid list) collects, in input order, exactly the points whose closest medoid
index is `i + j`.  This is the per-medoid reading of the Python loop that
appends each point `p` to `min(medoids, key=...)`: kernels and the medoid
order do not change during the loop, so medoid `i` ends up with exactly the
points whose argmin index is `i`, in input order. -/
def assignGo (dists : α → α → Q) (points : List α) (ms0 : List (Medoid α)) :
    ℕ → List (Medoid α) → List (Medoid α)
  | _, [] => []
  | i, m :: ms =>
      ⟨m.kernel, points.filter fun p => closestIdx dists p ms0 = i⟩ ::
        assignGo dists points ms0 (i + 1) ms

/-- Reset + ASSIGN, source lines 116–123.  `min` over an empty medoid list
raises `ValueError` in Python as soon as there is a point to place: `none`. -/
def assign (dists : α → α → Q) (points : List α) (ms : List (Medoid α)) :
    Option (List (Medoid α)) :=
  match ms, points with
  | [], _ :: _ => none
  | ms, _ => some (assignGo dists points ms 0 ms)

/-- PRUNE, source line 126: `medoids = [m for m in medoids if m.elements]`. -/
def prune (ms : List (Medoid α)) : List (Medoid α) :=
  ms.filter fun m => !m.elements.isEmpty

/-- The sum `sum(dists[e][k] for e in elements)`, the key of the ELECT `min`
(source line 131). -/
def sumDists (dists : α → α → Q) (elems : List α) (c : α) : Q :=
  (elems.map fun e => dists e c).sum

/-- ELECT for one medoid, source lines 130–134: re-elect the kernel as the
first member minimizing the summed distance to all members, and report whether
it changed.  Python `min` raises on an empty member list: `none` (unreachable
after PRUNE). -/
def elect1 (dists : α → α → Q) : Medoid α → Option (Medoid α × Bool)
  | ⟨_, []⟩ => none
  | ⟨k, e :: es⟩ =>
      let c := pyMinBy (sumDists dists (e :: es)) e es
      some (if k = c then (⟨k, e :: es⟩, false) else (⟨c, e :: es⟩, true))

/-- ELECT over the medoid list, accumulating the `change` flag
(source lines 129–134). -/
def electAll (dists : α → α → Q) : List (Medoid α) → Option (List (Medoid α) × Bool)
  | [] => some ([], false)
  | m :: ms => do
      let rc ← elect1 dists m
      let rsc ← electAll dists ms
      return (rc.1 :: rsc.1, rc.2 || rsc.2)

/-- One iteration of the main loop, source lines 115–134:
reset+ASSIGN, PRUNE, ELECT. -/
def kmStep (dists : α → α → Q) (points : List α) (ms : List (Medoid α)) :
    Option (List (Medoid α) × Bool) := do
  let ms1 ← assign dists points ms
  electAll dists (prune ms1)

/-- The `for n in xrange(iteration)` loop, source lines 115–139: run `kmStep`
up to `fuel` times, breaking as soon as no kernel changed; when the budget is
exhausted the current medoids are kept (not an error). -/
def kmLoop (dists : α → α → Q) (points : List α) :
    ℕ → List (Medoid α) → Option (List (Medoid α))
  | 0, ms => some ms
  | fuel + 1, ms => do
      let sc ← kmStep dists points ms
      if sc.2 then kmLoop dists points fuel sc.1 else some sc.1

/-- All values `dists[a][b]` for `a`, `b` members of a common medoid — the
generator of the final `max`, source lines 141–144. -/
def pairList (dists : α → α → Q) (ms : List (Medoid α)) : List Q :=
  (ms.map fun m => ((m.elements.map fun a => m.elements.map fun b => dists a b)).flatten).flatten

/-- The final diameter, source lines 141–144; Python `max` raises on an empty
generator: `none`. -/
def diamOf (dists : α → α → Q) (ms : List (Medoid α)) : Option Q :=
  match pairList dists ms with
  | [] => none
  | v :: vs => some (foldlMax v vs)

/-- Function `k_medoids(points, k, dists, iteration)`, source lines 92–146.
`sample` stands for the value returned by `random.sample(points, min k n)`
(the clamp of lines 107–108 is part of the sample contract `ValidSample`);
`random.sample` raises `ValueError` for a negative size, hence `none` for
`k < 0`. -/
def k_medoids (points : List α) (k : ℤ) (sample : List α) (dists : α → α → Q)
    (iteration : ℕ) : Option (Q × List (Medoid α)) :=
  if k < 0 then none
  else do
    let ms ← kmLoop dists points iteration (sample.map fun p => ⟨p, []⟩)
    let d ← diamOf dists ms
    return (d, ms)

/-- Contract of `random.sample(points, min k n)` (sampling without replacement
of `min k n` distinct positions): the sample is a sub-multiset of `points`
(stated by occurrence counts) of size `min k n`. -/
def ValidSample (points : List α) (k : ℤ) (sample : List α) : Prop :=
  (∀ x ∈ sample, sample.count x ≤ points.count x) ∧
    sample.length = min k.toNat points.length

/-- The `spawn` independent `k_medoids` runs consumed by `min` in
`k_medoids_iterspawn` (source line 178); an exception in any run propagates. -/
def runSpawns (points : List α) (k : ℤ) (dists : α → α → Q) (iteration : ℕ) :
    List (List α) → Option (List (Q × List (Medoid α)))
  | [] => some []
  | s :: ss => do
      let r ← k_medoids points k s dists iteration
      let rs ← runSpawns points k dists iteration ss
      return r :: rs

/-- Function `k_medoids_iterspawn(points, k, dists, spawn, iteration)`, source lines
149–184: the spawn run with the smallest diameter (`min` with
`key=itemgetter(0)`; the first run wins ties, and `min` over zero spawns
raises). `samples` holds the random sample of each spawn. -/
def k_medoids_iterspawn (points : List α) (k : ℤ) (samples : List (List α))
    (dists : α → α → Q) (iteration : ℕ) : Option (Q × List (Medoid α)) := do
  let rs ← runSpawns points k dists iteration samples
  match rs with
  | [] => none
  | r :: rest => some (pyMinBy (fun t => t.1) r rest)

/-- The values `1 + k` taken by the loop variable of
`for k, _ in enumerate(points)` (source line 227): `[1, 2, …, n]`. -/
def kRange : ℕ → List ℤ
  | 0 => []
  | n + 1 => kRange n ++ [(n : ℤ) + 1]

/-- The `for` loop of `k_medoids_iterall`, source lines 227–240: run the spawn
selector for each `k` in turn, breaking at the first diameter ≤ `diam_max`;
when the list is exhausted the last result is returned unconditionally.
(The `[]` case is unreachable for a nonempty input; in Python the variables
`diam, medoids` would be unbound there.) -/
def iterallGo (points : List α) (diam_max : Q) (sampler : ℤ → List (List α))
    (dists : α → α → Q) (iteration : ℕ) : List ℤ → Option (Q × List (Medoid α))
  | [] => none
  | kk :: ks => do
      let r ← k_medoids_iterspawn points kk (sampler kk) dists iteration
      if r.1 ≤ diam_max then some r
      else if ks.isEmpty then some r
      else iterallGo points diam_max sampler dists iteration ks

/-- Function `k_medoids_iterall(points, diam_max, dists, spawn, iteration)`, source
lines 187–240: raise `ValueError('No points given!')` on an empty input
(line 224–225, modelled by `none`), otherwise run the loop over k = 1, …, n.
`sampler kk` holds the spawn samples used at cluster count `kk`. -/
def k_medoids_iterall (points : List α) (diam_max : Q) (sampler : ℤ → List (List α))
    (dists : α → α → Q) (iteration : ℕ) : Option (Q × List (Medoid α)) :=
  if points.isEmpty then none
  else iterallGo points diam_max sampler dists iteration (kRange points.length)

/-- Contract for the samples consumed by `k_medoids_iterall`: at every cluster
count `kk` it will try, the spawn selector gets `spawn` valid samples. -/
def ValidSampler (points : List α) (spawn : ℕ) (sampler : ℤ → List (List α)) : Prop :=
  ∀ kk ∈ kRange points.length,
    (sampler kk).length = spawn ∧ ∀ s ∈ sampler kk, ValidSample points kk s

/-- Pointwise update of the dict-of-dicts distance cache:
`dists[x][y] = v`. -/
def dUpdate (g : α → α → Option Q) (a b : α) (v : Q) : α → α → Option Q :=
  fun x y => if x = a ∧ y = b then some v else g x y

/-- One inner iteration of the `build_distances` double loop, source lines
86–87: `dists[p][q] = distance(p, q); dists[q][p] = dists[p][q]`, with one
invocation of `distance` counted. -/
def bdStep (distance : α → α → Q) (p : α) (acc : (α → α → Option Q) × ℕ)
    (q : α) : (α → α → Option Q) × ℕ :=
  (dUpdate (dUpdate acc.1 p q (distance p q)) q p (distance p q), acc.2 + 1)

/-- Function `build_distances(points, distance)`, source lines 63–89: the double loop
`dists[p][q] = distance(p, q); dists[q][p] = dists[p][q]`.  The second
component counts the invocations of `distance` (one per inner iteration). -/
def build_distances (points : List α) (distance : α → α → Q) :
    (α → α → Option Q) × ℕ :=
  points.foldl (fun acc p => points.foldl (bdStep distance p) acc)
    (fun _ _ => none, 0)

/-- All members of all medoids, in medoid order
(`[e for m in medoids for e in m.elements]`). -/
def elemsOf (ms : List (Medoid α)) : List α :=
  (ms.map Medoid.elements).flatten

/-- The returned medoids form a partition of the input: their members are the
input points, each exactly as often as it occurs in the input, and no medoid
is empty. -/
def GoodPartition (points : List α) (ms : List (Medoid α)) : Prop :=
  List.Perm (elemsOf ms) points ∧ ∀ m ∈ ms, m.elements ≠ []

/-- Predicate: `x` is the first element of `l` attaining the minimal value of `f`:
everything before it is strictly worse, everything after it no better.  This
is exactly what Python `min(l, key=f)` returns. -/
def IsFirstMinBy (f : β → Q) (l : List β) (x : β) : Prop :=
  ∃ l1 l2, l = l1 ++ x :: l2 ∧ (∀ c ∈ l1, f x < f c) ∧ ∀ c ∈ l2, f x ≤ f c

/-- The ELECT invariant on a returned medoid: its kernel is the first member
minimizing the summed distance to the members. -/
def KernelElected (dists : α → α → Q) (m : Medoid α) : Prop :=
  IsFirstMinBy (sumDists dists m.elements) m.elements m.kernel

/- Concrete fixtures used by witnesses and counterexamples. -/

/-- Distance `|b - a|` on integer points, valued in `ℤ`. -/
def absDist (a b : ℤ) : ℤ :=
  ((b - a).natAbs : ℤ)

/-- The degenerate (but non-negative, symmetric, zero-diagonal,
triangle-inequality) distance that is zero everywhere. -/
def zeroDist (_ _ : ℤ) : ℤ :=
  0

/-- A concrete sampler for two points: one spawn per k, sampling `[0]` at
k = 1 and `[0, 1]` at k = 2. -/
def sampler01 : ℤ → List (List ℤ) :=
  fun kk => if kk = 1 then [[0]] else [[0, 1]]

/-! ## Lemmas about the Python `min` / `max` folds -/

theorem pyMinBy_le (f : β → Q) :
    ∀ (xs : List β) (x : β),
      f (pyMinBy f x xs) ≤ f x ∧ ∀ y ∈ xs, f (pyMinBy f x xs) ≤ f y := by
  intro xs
  induction xs with
  | nil => intro x; exact ⟨le_refl _, by simp⟩
  | cons y ys ih =>
    intro x
    have hstep : pyMinBy f x (y :: ys) = pyMinBy f (if f y < f x then y else x) ys := rfl
    by_cases h : f y < f x
    · rw [hstep, if_pos h]
      obtain ⟨h1, h2⟩ := ih y
      refine ⟨le_trans h1 (le_of_lt h), ?_⟩
      intro z hz
      rcases List.mem_cons.mp hz with hz | hz
      · exact hz ▸ h1
      · exact h2 z hz
    · rw [hstep, if_neg h]
      obtain ⟨h1, h2⟩ := ih x
      refine ⟨h1, ?_⟩
      intro z hz
      rcases List.mem_cons.mp hz with hz | hz
      · exact hz ▸ le_trans h1 (not_lt.mp h)
      · exact h2 z hz

theorem pyMinBy_first (f : β → Q) :
    ∀ (xs : List β) (x : β), IsFirstMinBy f (x :: xs) (pyMinBy f x xs) := by
  intro xs
  induction xs with
  | nil =>
    intro x
    exact ⟨[], [], rfl, by simp, by simp⟩
  | cons y ys ih =>
    intro x
    have hstep : pyMinBy f x (y :: ys) = pyMinBy f (if f y < f x then y else x) ys := rfl
    by_cases h : f y < f x
    · rw [hstep, if_pos h]
      obtain ⟨l1, l2, heq, h1, h2⟩ := ih y
      refine ⟨x :: l1, l2, ?_, ?_, h2⟩
      · rw [List.cons_append, ← heq]
      · intro c hc
        rcases List.mem_cons.mp hc with hc | hc
        · subst hc
          exact lt_of_le_of_lt (pyMinBy_le f ys y).1 h
        · exact h1 c hc
    · rw [hstep, if_neg h]
      obtain ⟨l1, l2, heq, h1, h2⟩ := ih x
      cases l1 with
      | nil =>
        obtain ⟨hx, hys⟩ := List.cons.inj heq
        refine ⟨[], y :: ys, ?_, by simp, ?_⟩
        · simp [← hx]
        · intro c hc
          rcases List.mem_cons.mp hc with hc | hc
          · subst hc
            exact le_trans (le_of_eq (congrArg f hx.symm)) (not_lt.mp h)
          · exact h2 c (hys ▸ hc)
      | cons a t =>
        rw [List.cons_append] at heq
        obtain ⟨hx, hys⟩ := List.cons.inj heq
        have hfa : f (pyMinBy f x ys) < f a := h1 a (List.mem_cons_self a t)
        refine ⟨x :: y :: t, l2, ?_, ?_, h2⟩
        · rw [List.cons_append, List.cons_append, ← hys]
        · intro c hc
          rcases List.mem_cons.mp hc with hc | hc
          · subst hc
            exact hx ▸ hfa
          · rcases List.mem_cons.mp hc with hc | hc
            · subst hc
              exact lt_of_lt_of_le (hx ▸ hfa) (not_lt.mp h)
            · exact h1 c (List.mem_cons_of_mem a hc)

theorem pyMinBy_mem (f : β → Q) (xs : List β) (x : β) :
    pyMinBy f x xs ∈ x :: xs := by
  obtain ⟨l1, l2, heq, -, -⟩ := pyMinBy_first f xs x
  rw [heq]
  exact List.mem_append_right l1 (List.mem_cons_self _ _)

theorem foldlMin_le (l : List Q) :
    ∀ v : Q, foldlMin v l ≤ v ∧ ∀ y ∈ l, foldlMin v l ≤ y := by
  induction l with
  | nil => intro v; exact ⟨le_refl _, by simp⟩
  | cons y ys ih =>
    intro v
    have hstep : foldlMin v (y :: ys) = foldlMin (min v y) ys := rfl
    obtain ⟨h1, h2⟩ := ih (min v y)
    rw [hstep]
    refine ⟨le_trans h1 (min_le_left _ _), ?_⟩
    intro z hz
    rcases List.mem_cons.mp hz with hz | hz
    · subst hz; exact le_trans h1 (min_le_right _ _)
    · exact h2 z hz

theorem foldlMin_mem (l : List Q) :
    ∀ v : Q, foldlMin v l = v ∨ foldlMin v l ∈ l := by
  induction l with
  | nil => intro v; exact Or.inl rfl
  | cons y ys ih =>
    intro v
    have hstep : foldlMin v (y :: ys) = foldlMin (min v y) ys := rfl
    rw [hstep]
    rcases ih (min v y) with h | h
    · rcases min_choice v y with hm | hm
      · exact Or.inl (by rw [h, hm])
      · refine Or.inr ?_
        rw [h, hm]
        exact List.mem_cons_self y ys
    · exact Or.inr (List.mem_cons_of_mem y h)

theorem foldlMax_ge (l : List Q) :
    ∀ v : Q, v ≤ foldlMax v l ∧ ∀ y ∈ l, y ≤ foldlMax v l := by
  induction l with
  | nil => intro v; exact ⟨le_refl _, by simp⟩
  | cons y ys ih =>
    intro v
    have hstep : foldlMax v (y :: ys) = foldlMax (max v y) ys := rfl
    obtain ⟨h1, h2⟩ := ih (max v y)
    rw [hstep]
    refine ⟨le_trans (le_max_left _ _) h1, ?_⟩
    intro z hz
    rcases List.mem_cons.mp hz with hz | hz
    · subst hz; exact le_trans (le_max_right _ _) h1
    · exact h2 z hz

theorem foldlMax_mem (l : List Q) :
    ∀ v : Q, foldlMax v l = v ∨ foldlMax v l ∈ l := by
  induction l with
  | nil => intro v; exact Or.inl rfl
  | cons y ys ih =>
    intro v
    have hstep : foldlMax v (y :: ys) = foldlMax (max v y) ys := rfl
    rw [hstep]
    rcases ih (max v y) with h | h
    · rcases max_choice v y with hm | hm
      · exact Or.inl (by rw [h, hm])
      · refine Or.inr ?_
        rw [h, hm]
        exact List.mem_cons_self y ys
    · exact Or.inr (List.mem_cons_of_mem y h)

theorem foldlMax_le (l : List Q) (v c : Q) (hv : v ≤ c) (hl : ∀ y ∈ l, y ≤ c) :
    foldlMax v l ≤ c := by
  rcases foldlMax_mem l v with h | h
  · rw [h]; exact hv
  · exact hl _ h

/-! ## Lemmas about `closestIdx` -/

theorem firstIdxEq_spec (f : Medoid α → Q) (v : Q) :
    ∀ ms : List (Medoid α), (∃ m ∈ ms, f m = v) →
      ∃ h : firstIdxEq f v ms < ms.length,
        f (ms.get ⟨firstIdxEq f v ms, h⟩) = v := by
  intro ms
  induction ms with
  | nil => rintro ⟨m, hm, -⟩; exact absurd hm (List.not_mem_nil m)
  | cons m ms ih =>
    intro hex
    by_cases hm : f m = v
    · have hidx : firstIdxEq f v (m :: ms) = 0 := by simp [firstIdxEq, hm]
      simp only [hidx]
      exact ⟨Nat.succ_pos _, hm⟩
    · have hidx : firstIdxEq f v (m :: ms) = firstIdxEq f v ms + 1 := by
        simp [firstIdxEq, hm]
      have hex2 : ∃ m2 ∈ ms, f m2 = v := by
        obtain ⟨m2, hm2, hfm2⟩ := hex
        rcases List.mem_cons.mp hm2 with h2 | h2
        · exact absurd (h2 ▸ hfm2) hm
        · exact ⟨m2, h2, hfm2⟩
      obtain ⟨hlt, hget⟩ := ih hex2
      simp only [hidx]
      exact ⟨Nat.succ_lt_succ hlt, hget⟩

theorem closestIdx_cons (dists : α → α → Q) (p : α) (m0 : Medoid α)
    (ms : List (Medoid α)) :
    closestIdx dists p (m0 :: ms) =
      firstIdxEq (fun m2 => dists p m2.kernel)
        (foldlMin (dists p m0.kernel) (ms.map fun m2 => dists p m2.kernel))
        (m0 :: ms) := rfl

theorem closestIdx_spec (dists : α → α → Q) (p : α) (m0 : Medoid α)
    (ms : List (Medoid α)) :
    ∃ h : closestIdx dists p (m0 :: ms) < (m0 :: ms).length,
      ∀ m2 ∈ m0 :: ms,
        dists p ((m0 :: ms).get ⟨closestIdx dists p (m0 :: ms), h⟩).kernel ≤
          dists p m2.kernel := by
  have hmin : ∀ m2 ∈ m0 :: ms,
      foldlMin (dists p m0.kernel) (ms.map fun m3 => dists p m3.kernel) ≤
        dists p m2.kernel := by
    intro m2 hm2
    obtain ⟨h1, h2⟩ :=
      foldlMin_le (ms.map fun m3 => dists p m3.kernel) (dists p m0.kernel)
    rcases List.mem_cons.mp hm2 with h | h
    · rw [h]; exact h1
    · exact h2 _ (List.mem_map_of_mem _ h)
  have hex : ∃ m2 ∈ m0 :: ms, (fun m3 => dists p m3.kernel) m2 =
      foldlMin (dists p m0.kernel) (ms.map fun m3 => dists p m3.kernel) := by
    rcases foldlMin_mem (ms.map fun m3 => dists p m3.kernel) (dists p m0.kernel)
      with h | h
    · exact ⟨m0, List.mem_cons_self _ _, h.symm⟩
    · obtain ⟨m2, hm2, hfm2⟩ := List.mem_map.mp h
      exact ⟨m2, List.mem_cons_of_mem m0 hm2, hfm2⟩
  obtain ⟨hlt, hget⟩ := firstIdxEq_spec (fun m3 => dists p m3.kernel)
    (foldlMin (dists p m0.kernel) (ms.map fun m3 => dists p m3.kernel))
    (m0 :: ms) hex
  simp only [closestIdx_cons]
  refine ⟨hlt, ?_⟩
  intro m2 hm2
  have hget2 : dists p ((m0 :: ms).get
      ⟨firstIdxEq (fun m3 => dists p m3.kernel)
        (foldlMin (dists p m0.kernel) (ms.map fun m3 => dists p m3.kernel))
        (m0 :: ms), hlt⟩).kernel =
      foldlMin (dists p m0.kernel) (ms.map fun m3 => dists p m3.kernel) := hget
  exact hget2.trans_le (hmin m2 hm2)

theorem closestIdx_lt (dists : α → α → Q) (p : α) (ms : List (Medoid α))
    (h : ms ≠ []) : closestIdx dists p ms < ms.length := by
  cases ms with
  | nil => exact absurd rfl h
  | cons m0 rest => exact (closestIdx_spec dists p m0 rest).fst

/-! ## Lemmas about ASSIGN -/

theorem count_filter_eq (p : α → Bool) (l : List α) (x : α) :
    List.count x (l.filter p) = if p x then List.count x l else 0 := by
  by_cases h : p x = true
  · rw [if_pos h, List.count_filter h]
  · rw [if_neg h, List.count_eq_zero]
    intro hmem
    exact h (List.mem_filter.mp hmem).2

theorem elemsOf_cons (m : Medoid α) (ms : List (Medoid α)) :
    elemsOf (m :: ms) = m.elements ++ elemsOf ms := rfl

theorem assignGo_cons (dists : α → α → Q) (points : List α)
    (ms0 : List (Medoid α)) (i : ℕ) (m : Medoid α) (ms : List (Medoid α)) :
    assignGo dists points ms0 i (m :: ms) =
      ⟨m.kernel, points.filter fun p => closestIdx dists p ms0 = i⟩ ::
        assignGo dists points ms0 (i + 1) ms := rfl

theorem mem_assignGo (dists : α → α → Q) (points : List α)
    (ms0 : List (Medoid α)) :
    ∀ (ms : List (Medoid α)) (i : ℕ) (m2 : Medoid α),
      m2 ∈ assignGo dists points ms0 i ms →
      ∃ j, ∃ hj : j < ms.length,
        m2 = ⟨(ms.get ⟨j, hj⟩).kernel,
              points.filter fun p => closestIdx dists p ms0 = i + j⟩ := by
  intro ms
  induction ms with
  | nil => intro i m2 h; simp [assignGo] at h
  | cons m rest ih =>
    intro i m2 h
    rw [assignGo_cons] at h
    rcases List.mem_cons.mp h with h | h
    · refine ⟨0, Nat.succ_pos _, ?_⟩
      simpa using h
    · obtain ⟨j, hj, hm2⟩ := ih (i + 1) m2 h
      refine ⟨j + 1, Nat.succ_lt_succ hj, ?_⟩
      simp only [show i + (j + 1) = (i + 1) + j from by omega]
      exact hm2

theorem count_elemsOf_assignGo (dists : α → α → Q) (points : List α)
    (ms0 : List (Medoid α)) (x : α) :
    ∀ (ms : List (Medoid α)) (i : ℕ),
      List.count x (elemsOf (assignGo dists points ms0 i ms)) =
        if i ≤ closestIdx dists x ms0 ∧ closestIdx dists x ms0 < i + ms.length
        then List.count x points else 0 := by
  intro ms
  induction ms with
  | nil =>
    intro i
    simp only [assignGo, elemsOf, List.map_nil, List.flatten_nil,
      List.count_nil, List.length_nil]
    split_ifs <;> omega
  | cons m rest ih =>
    intro i
    rw [assignGo_cons, elemsOf_cons, List.count_append, ih (i + 1),
      count_filter_eq]
    simp only [decide_eq_true_eq, List.length_cons]
    split_ifs <;> omega

theorem count_elemsOf_assign (dists : α → α → Q) (points : List α)
    (ms : List (Medoid α)) (hne : ms ≠ []) (x : α) :
    List.count x (elemsOf (assignGo dists points ms 0 ms)) =
      List.count x points := by
  rw [count_elemsOf_assignGo]
  rw [if_pos ⟨Nat.zero_le _, by simpa using closestIdx_lt dists x ms hne⟩]

theorem assignGo_min (dists : α → α → Q) (points : List α)
    (ms : List (Medoid α)) (hne : ms ≠ []) :
    ∀ m2 ∈ assignGo dists points ms 0 ms, ∀ p ∈ m2.elements, ∀ m3 ∈ ms,
      dists p m2.kernel ≤ dists p m3.kernel := by
  intro m2 hm2 p hp m3 hm3
  obtain ⟨j, hj, hm2eq⟩ := mem_assignGo dists points ms ms 0 m2 hm2
  subst hm2eq
  have hcp : closestIdx dists p ms = j := by
    have := (List.mem_filter.mp hp).2
    simpa using this
  subst hcp
  cases ms with
  | nil => exact absurd rfl hne
  | cons m0 rest =>
    obtain ⟨hlt, hmin⟩ := closestIdx_spec dists p m0 rest
    exact hmin m3 hm3

theorem assignGo_length (dists : α → α → Q) (points : List α)
    (ms0 : List (Medoid α)) :
    ∀ (ms : List (Medoid α)) (i : ℕ),
      (assignGo dists points ms0 i ms).length = ms.length := by
  intro ms
  induction ms with
  | nil => intro i; rfl
  | cons m rest ih =>
    intro i
    rw [assignGo_cons]
    simp [ih]

theorem assign_eq_some (dists : α → α → Q) (points : List α)
    (ms : List (Medoid α)) (hne : ms ≠ []) :
    assign dists points ms = some (assignGo dists points ms 0 ms) := by
  cases ms with
  | nil => exact absurd rfl hne
  | cons m rest =>
    cases points with
    | nil => rfl
    | cons p ps => rfl

/-! ## Lemmas about PRUNE -/

theorem prune_cons (m : Medoid α) (ms : List (Medoid α)) :
    prune (m :: ms) =
      if m.elements.isEmpty then prune ms else m :: prune ms := by
  by_cases h : m.elements.isEmpty <;>
    simp [prune, List.filter_cons, h]

theorem count_elemsOf_prune (ms : List (Medoid α)) (x : α) :
    List.count x (elemsOf (prune ms)) = List.count x (elemsOf ms) := by
  induction ms with
  | nil => rfl
  | cons m rest ih =>
    rw [prune_cons, elemsOf_cons, List.count_append]
    by_cases h : m.elements.isEmpty
    · have hel : m.elements = [] := by simpa using h
      rw [if_pos h, ih, hel]
      simp
    · rw [if_neg h, elemsOf_cons, List.count_append, ih]

theorem prune_elements_ne_nil (ms : List (Medoid α)) :
    ∀ m ∈ prune ms, m.elements ≠ [] := by
  intro m hm
  have := (List.mem_filter.mp hm).2
  simpa using this

theorem prune_subset (ms : List (Medoid α)) : ∀ m ∈ prune ms, m ∈ ms :=
  fun _ hm => List.mem_of_mem_filter hm

theorem prune_length_le (ms : List (Medoid α)) :
    (prune ms).length ≤ ms.length :=
  List.length_filter_le _ ms

/-! ## Lemmas about ELECT -/

theorem elect1_spec (dists : α → α → Q) (m : Medoid α)
    (hne : m.elements ≠ []) :
    ∃ mc, elect1 dists m = some mc ∧ mc.1.elements = m.elements ∧
      KernelElected dists mc.1 := by
  obtain ⟨k, el⟩ := m
  cases el with
  | nil => exact absurd rfl hne
  | cons e es =>
    by_cases hk : k = pyMinBy (sumDists dists (e :: es)) e es
    · refine ⟨(⟨k, e :: es⟩, false), ?_, rfl, ?_⟩
      · simp [elect1, hk]
      · show IsFirstMinBy (sumDists dists (e :: es)) (e :: es) k
        rw [hk]
        exact pyMinBy_first _ es e
    · refine ⟨(⟨pyMinBy (sumDists dists (e :: es)) e es, e :: es⟩, true),
        ?_, rfl, ?_⟩
      · simp [elect1, hk]
      · exact pyMinBy_first _ es e

theorem electAll_spec (dists : α → α → Q) :
    ∀ ms : List (Medoid α), (∀ m ∈ ms, m.elements ≠ []) →
      ∃ out : List (Medoid α) × Bool, electAll dists ms = some out ∧
        out.1.map Medoid.elements = ms.map Medoid.elements ∧
        ∀ m2 ∈ out.1, KernelElected dists m2 := by
  intro ms
  induction ms with
  | nil => intro _; exact ⟨([], false), rfl, rfl, by simp⟩
  | cons m rest ih =>
    intro hne
    obtain ⟨mc, hmc, hel, hker⟩ := elect1_spec dists m (hne m (List.mem_cons_self _ _))
    obtain ⟨out, hout, hmap, hkerall⟩ :=
      ih fun m2 hm2 => hne m2 (List.mem_cons_of_mem m hm2)
    refine ⟨(mc.1 :: out.1, mc.2 || out.2), ?_, ?_, ?_⟩
    · simp [electAll, hmc, hout]
    · simp [hmap, hel]
    · intro m2 hm2
      rcases List.mem_cons.mp hm2 with h | h
      · exact h ▸ hker
      · exact hkerall m2 h

/-! ## One step and the main loop -/

theorem kmStep_spec (dists : α → α → Q) (points : List α)
    (ms : List (Medoid α)) (hms : ms ≠ []) :
    ∃ out : List (Medoid α) × Bool, kmStep dists points ms = some out ∧
      (∀ x, List.count x (elemsOf out.1) = List.count x points) ∧
      (∀ m ∈ out.1, m.elements ≠ []) ∧
      out.1.length ≤ ms.length ∧
      ∀ m2 ∈ out.1, KernelElected dists m2 ∧
        ∃ c, ∀ p ∈ m2.elements, ∀ m3 ∈ ms, dists p c ≤ dists p m3.kernel := by
  have hassign := assign_eq_some dists points ms hms
  obtain ⟨out, hout, hmap, hker⟩ :=
    electAll_spec dists (prune (assignGo dists points ms 0 ms))
      (prune_elements_ne_nil _)
  have helems : elemsOf out.1 = elemsOf (prune (assignGo dists points ms 0 ms)) := by
    unfold elemsOf
    rw [hmap]
  refine ⟨out, ?_, ?_, ?_, ?_, ?_⟩
  · simp [kmStep, hassign, hout]
  · intro x
    rw [helems, count_elemsOf_prune, count_elemsOf_assign dists points ms hms]
  · intro m hm
    have : m.elements ∈ out.1.map Medoid.elements := List.mem_map_of_mem _ hm
    rw [hmap] at this
    obtain ⟨m3, hm3, hm3el⟩ := List.mem_map.mp this
    rw [← hm3el]
    exact prune_elements_ne_nil _ m3 hm3
  · have h1 : out.1.length = (prune (assignGo dists points ms 0 ms)).length := by
      have := congrArg List.length hmap
      simpa using this
    rw [h1]
    exact le_trans (prune_length_le _)
      (le_of_eq (assignGo_length dists points ms ms 0))
  · intro m2 hm2
    refine ⟨(hker m2 hm2), ?_⟩
    have : m2.elements ∈ out.1.map Medoid.elements := List.mem_map_of_mem _ hm2
    rw [hmap] at this
    obtain ⟨m1, hm1, hm1el⟩ := List.mem_map.mp this
    refine ⟨m1.kernel, ?_⟩
    intro p hp m3 hm3
    have hp1 : p ∈ m1.elements := by rw [hm1el]; exact hp
    exact assignGo_min dists points ms hms m1 (prune_subset _ m1 hm1) p hp1 m3 hm3

theorem mem_pairList (dists : α → α → Q) (ms : List (Medoid α)) (v : Q) :
    v ∈ pairList dists ms ↔
      ∃ m ∈ ms, ∃ a ∈ m.elements, ∃ b ∈ m.elements, v = dists a b := by
  constructor
  · intro h
    obtain ⟨row, hrow, hv⟩ := List.mem_flatten.mp h
    obtain ⟨m, hm, hmrow⟩ := List.mem_map.mp hrow
    subst hmrow
    obtain ⟨row2, hrow2, hv2⟩ := List.mem_flatten.mp hv
    obtain ⟨a, ha, harow⟩ := List.mem_map.mp hrow2
    subst harow
    obtain ⟨b, hb, hvb⟩ := List.mem_map.mp hv2
    exact ⟨m, hm, a, ha, b, hb, hvb.symm⟩
  · rintro ⟨m, hm, a, ha, b, hb, rfl⟩
    refine List.mem_flatten.mpr ⟨_, List.mem_map_of_mem _ hm, ?_⟩
    refine List.mem_flatten.mpr ⟨_, List.mem_map_of_mem _ ha, ?_⟩
    exact List.mem_map_of_mem _ hb

theorem diamOf_spec (dists : α → α → Q) (ms : List (Medoid α))
    (hne : pairList dists ms ≠ []) :
    ∃ d, diamOf dists ms = some d ∧ d ∈ pairList dists ms ∧
      ∀ y ∈ pairList dists ms, y ≤ d := by
  cases hp : pairList dists ms with
  | nil => exact absurd hp hne
  | cons v vs =>
    refine ⟨foldlMax v vs, ?_, ?_, ?_⟩
    · simp [diamOf, hp]
    · rcases foldlMax_mem vs v with h | h
      · rw [h]; exact List.mem_cons_self _ _
      · exact List.mem_cons_of_mem v h
    · intro y hy
      obtain ⟨h1, h2⟩ := foldlMax_ge vs v
      rcases List.mem_cons.mp hy with h | h
      · rw [h]; exact h1
      · exact h2 y h

theorem kmLoop_spec (dists : α → α → Q) (points : List α) (hpts : points ≠ []) :
    ∀ fuel : ℕ, 1 ≤ fuel → ∀ ms : List (Medoid α), ms ≠ [] →
      ∃ ms2, kmLoop dists points fuel ms = some ms2 ∧
        GoodPartition points ms2 ∧ (∀ m ∈ ms2, KernelElected dists m) ∧
        ms2.length ≤ ms.length := by
  intro fuel
  induction fuel with
  | zero => intro h; exact absurd h (by omega)
  | succ n ih =>
    intro _ ms hms
    obtain ⟨out, hstep, hcount, hnon, hlen, hker⟩ := kmStep_spec dists points ms hms
    have hperm : List.Perm (elemsOf out.1) points := List.perm_iff_count.mpr hcount
    have hne2 : out.1 ≠ [] := by
      intro h0
      apply hpts
      have hnil : elemsOf out.1 = [] := by rw [h0]; rfl
      have h2 := hperm.symm
      rw [hnil] at h2
      exact h2.eq_nil
    by_cases hch : out.2 = true
    · rcases Nat.eq_zero_or_pos n with hn | hn
      · subst hn
        refine ⟨out.1, ?_, ⟨hperm, hnon⟩, fun m hm => (hker m hm).1, hlen⟩
        simp [kmLoop, hstep, hch]
      · obtain ⟨ms2, hloop, hgood, hkers, hlen2⟩ := ih hn out.1 hne2
        refine ⟨ms2, ?_, hgood, hkers, le_trans hlen2 hlen⟩
        simp [kmLoop, hstep, hch, hloop]
    · refine ⟨out.1, ?_, ⟨hperm, hnon⟩, fun m hm => (hker m hm).1, hlen⟩
      simp [kmLoop, hstep, hch]

theorem k_medoids_spec (points : List α) (k : ℤ) (sample : List α)
    (dists : α → α → Q) (iteration : ℕ) (hk : 0 ≤ k) (hpts : points ≠ [])
    (hs : sample ≠ []) (hit : 1 ≤ iteration) :
    ∃ d ms, k_medoids points k sample dists iteration = some (d, ms) ∧
      GoodPartition points ms ∧ (∀ m ∈ ms, KernelElected dists m) ∧
      ms.length ≤ sample.length ∧ d ∈ pairList dists ms ∧
      ∀ y ∈ pairList dists ms, y ≤ d := by
  have hinit : (sample.map fun p => (⟨p, []⟩ : Medoid α)) ≠ [] := by
    simpa using hs
  obtain ⟨ms2, hloop, hgood, hker, hlen⟩ :=
    kmLoop_spec dists points hpts iteration hit _ hinit
  have hlen2 : ms2.length ≤ sample.length := by
    simpa using hlen
  have hpne : pairList dists ms2 ≠ [] := by
    obtain ⟨p0, hp0⟩ := List.exists_mem_of_ne_nil points hpts
    have hp02 : p0 ∈ elemsOf ms2 := hgood.1.symm.subset hp0
    obtain ⟨row, hrow, hmem⟩ := List.mem_flatten.mp hp02
    obtain ⟨m, hm, hrowm⟩ := List.mem_map.mp hrow
    subst hrowm
    have : dists p0 p0 ∈ pairList dists ms2 :=
      (mem_pairList dists ms2 _).mpr ⟨m, hm, p0, hmem, p0, hmem, rfl⟩
    exact List.ne_nil_of_mem this
  obtain ⟨d, hdiam, hdmem, hdub⟩ := diamOf_spec dists ms2 hpne
  refine ⟨d, ms2, ?_, hgood, hker, hlen2, hdmem, hdub⟩
  rw [k_medoids, if_neg (not_lt.mpr hk)]
  simp [hloop, hdiam]

theorem mem_elemsOf (ms : List (Medoid α)) (p : α) :
    p ∈ elemsOf ms ↔ ∃ m ∈ ms, p ∈ m.elements := by
  constructor
  · intro h
    obtain ⟨row, hrow, hmem⟩ := List.mem_flatten.mp h
    obtain ⟨m, hm, hrowm⟩ := List.mem_map.mp hrow
    subst hrowm
    exact ⟨m, hm, hmem⟩
  · rintro ⟨m, hm, hp⟩
    exact List.mem_flatten.mpr ⟨_, List.mem_map_of_mem _ hm, hp⟩

theorem isFirstMin_mem (f : β → Q) (l : List β) (x : β)
    (h : IsFirstMinBy f l x) : x ∈ l := by
  obtain ⟨l1, l2, heq, -, -⟩ := h
  rw [heq]
  exact List.mem_append_right l1 (List.mem_cons_self _ _)

theorem isFirstMin_le (f : β → Q) (l : List β) (x : β)
    (h : IsFirstMinBy f l x) : ∀ c ∈ l, f x ≤ f c := by
  obtain ⟨l1, l2, heq, h1, h2⟩ := h
  intro c hc
  rw [heq] at hc
  rcases List.mem_append.mp hc with hc | hc
  · exact le_of_lt (h1 c hc)
  · rcases List.mem_cons.mp hc with hc | hc
    · rw [hc]
    · exact h2 c hc

theorem pairList_ne_nil (dists : α → α → Q) (points : List α)
    (ms : List (Medoid α)) (hgood : GoodPartition points ms)
    (hpts : points ≠ []) : pairList dists ms ≠ [] := by
  obtain ⟨p0, hp0⟩ := List.exists_mem_of_ne_nil points hpts
  obtain ⟨m, hm, hmem⟩ := (mem_elemsOf ms p0).mp (hgood.1.symm.subset hp0)
  exact List.ne_nil_of_mem
    ((mem_pairList dists ms _).mpr ⟨m, hm, p0, hmem, p0, hmem, rfl⟩)

/-! ## The zero-diameter invariant at k = n -/

theorem kmLoop_zero (dists : α → α → Q) (points : List α) (hpts : points ≠ [])
    (hnn : ∀ a b, 0 ≤ dists a b) (hsym : ∀ a b, dists a b = dists b a)
    (htri : ∀ a b c, dists a b ≤ dists a c + dists c b) :
    ∀ fuel : ℕ, 1 ≤ fuel → ∀ ms : List (Medoid α), ms ≠ [] →
      (∀ p ∈ points, ∃ m ∈ ms, dists p m.kernel = 0) →
      ∃ ms2, kmLoop dists points fuel ms = some ms2 ∧
        GoodPartition points ms2 ∧
        ∀ m2 ∈ ms2, ∀ p ∈ m2.elements, dists p m2.kernel = 0 := by
  intro fuel
  induction fuel with
  | zero => intro h; exact absurd h (by omega)
  | succ n ih =>
    intro _ ms hms hinv
    obtain ⟨out, hstep, hcount, hnon, hlen, hker⟩ := kmStep_spec dists points ms hms
    have hperm : List.Perm (elemsOf out.1) points := List.perm_iff_count.mpr hcount
    have htight : ∀ m2 ∈ out.1, ∀ p ∈ m2.elements, dists p m2.kernel = 0 := by
      intro m2 hm2 p hp
      obtain ⟨hkel, c, hc⟩ := hker m2 hm2
      have hdc0 : ∀ q ∈ m2.elements, dists q c = 0 := by
        intro q hq
        have hqp : q ∈ points := hperm.subset ((mem_elemsOf _ _).mpr ⟨m2, hm2, hq⟩)
        obtain ⟨m0, hm0, hm0k⟩ := hinv q hqp
        refine le_antisymm ?_ (hnn _ _)
        rw [← hm0k]
        exact hc q hq m0 hm0
      have hkmem : m2.kernel ∈ m2.elements := isFirstMin_mem _ _ _ hkel
      refine le_antisymm ?_ (hnn _ _)
      calc dists p m2.kernel ≤ dists p c + dists c m2.kernel := htri _ _ _
        _ = 0 + 0 := by rw [hdc0 p hp, hsym c m2.kernel, hdc0 m2.kernel hkmem]
        _ = 0 := by norm_num
    have hne2 : out.1 ≠ [] := by
      intro h0
      apply hpts
      have hnil : elemsOf out.1 = [] := by rw [h0]; rfl
      have h2 := hperm.symm
      rw [hnil] at h2
      exact h2.eq_nil
    have hinv2 : ∀ p ∈ points, ∃ m ∈ out.1, dists p m.kernel = 0 := by
      intro p hp
      obtain ⟨m, hm, hpm⟩ := (mem_elemsOf _ _).mp (hperm.symm.subset hp)
      exact ⟨m, hm, htight m hm p hpm⟩
    by_cases hch : out.2 = true
    · rcases Nat.eq_zero_or_pos n with hn | hn
      · subst hn
        refine ⟨out.1, ?_, ⟨hperm, hnon⟩, htight⟩
        simp [kmLoop, hstep, hch]
      · obtain ⟨ms2, hloop, hgood, htight2⟩ := ih hn out.1 hne2 hinv2
        refine ⟨ms2, ?_, hgood, htight2⟩
        simp [kmLoop, hstep, hch, hloop]
    · refine ⟨out.1, ?_, ⟨hperm, hnon⟩, htight⟩
      simp [kmLoop, hstep, hch]

theorem k_medoids_full (points : List α) (k : ℤ) (sample : List α)
    (dists : α → α → Q) (iteration : ℕ) (hk : 0 ≤ k) (hpts : points ≠ [])
    (hit : 1 ≤ iteration) (hperm : List.Perm sample points)
    (hnn : ∀ a b, 0 ≤ dists a b) (hsym : ∀ a b, dists a b = dists b a)
    (hdiag : ∀ a, dists a a = 0)
    (htri : ∀ a b c, dists a b ≤ dists a c + dists c b) :
    ∃ ms, k_medoids points k sample dists iteration = some (0, ms) ∧
      GoodPartition points ms := by
  have hs : sample ≠ [] := by
    intro h0
    apply hpts
    rw [h0] at hperm
    exact hperm.symm.eq_nil
  have hinit : (sample.map fun p => (⟨p, []⟩ : Medoid α)) ≠ [] := by
    simpa using hs
  have hinv : ∀ p ∈ points,
      ∃ m ∈ sample.map fun p => (⟨p, []⟩ : Medoid α), dists p m.kernel = 0 := by
    intro p hp
    have hps : p ∈ sample := hperm.mem_iff.mpr hp
    exact ⟨⟨p, []⟩, List.mem_map_of_mem _ hps, hdiag p⟩
  obtain ⟨ms2, hloop, hgood, htight⟩ :=
    kmLoop_zero dists points hpts hnn hsym htri iteration hit _ hinit hinv
  obtain ⟨d, hdiam, hdmem, hdub⟩ :=
    diamOf_spec dists ms2 (pairList_ne_nil dists points ms2 hgood hpts)
  have hd0 : d = 0 := by
    obtain ⟨m, hm, a, ha, b, hb, hdval⟩ := (mem_pairList dists ms2 d).mp hdmem
    refine le_antisymm ?_ ?_
    · rw [hdval]
      calc dists a b ≤ dists a m.kernel + dists m.kernel b := htri _ _ _
        _ = 0 + 0 := by
            rw [htight m hm a ha, hsym m.kernel b, htight m hm b hb]
        _ = 0 := by norm_num
    · rw [hdval]; exact hnn a b
  subst hd0
  refine ⟨ms2, ?_, hgood⟩
  rw [k_medoids, if_neg (not_lt.mpr hk)]
  simp [hloop, hdiam]

/-! ## Failure modes of `k_medoids` -/

theorem k_medoids_neg (points : List α) (k : ℤ) (sample : List α)
    (dists : α → α → Q) (iteration : ℕ) (hk : k < 0) :
    k_medoids points k sample dists iteration = none := by
  rw [k_medoids, if_pos hk]

theorem k_medoids_nil_sample (points : List α) (k : ℤ) (dists : α → α → Q)
    (iteration : ℕ) (hk : 0 ≤ k) (hpts : points ≠ []) (hit : 1 ≤ iteration) :
    k_medoids points k [] dists iteration = none := by
  rw [k_medoids, if_neg (not_lt.mpr hk)]
  cases points with
  | nil => exact absurd rfl hpts
  | cons p ps =>
    cases iteration with
    | zero => exact absurd hit (by omega)
    | succ n => rfl

/-! ## Lemmas about `k_medoids_iterspawn` -/

theorem runSpawns_some (points : List α) (k : ℤ) (dists : α → α → Q)
    (iteration : ℕ) :
    ∀ ss : List (List α),
      (∀ s ∈ ss, ∃ r, k_medoids points k s dists iteration = some r) →
      ∃ rs, runSpawns points k dists iteration ss = some rs ∧
        rs.length = ss.length ∧
        ∀ r ∈ rs, ∃ s ∈ ss, k_medoids points k s dists iteration = some r := by
  intro ss
  induction ss with
  | nil => intro _; exact ⟨[], rfl, rfl, by simp⟩
  | cons s t ih =>
    intro hall
    obtain ⟨r, hr⟩ := hall s (List.mem_cons_self _ _)
    obtain ⟨rs, hrs, hlen, hmem⟩ := ih fun s2 hs2 => hall s2 (List.mem_cons_of_mem s hs2)
    refine ⟨r :: rs, ?_, by simp [hlen], ?_⟩
    · simp [runSpawns, hr, hrs]
    · intro r2 hr2
      rcases List.mem_cons.mp hr2 with h | h
      · exact ⟨s, List.mem_cons_self _ _, h ▸ hr⟩
      · obtain ⟨s2, hs2, hs2r⟩ := hmem r2 h
        exact ⟨s2, List.mem_cons_of_mem s hs2, hs2r⟩

theorem iterspawn_eq (points : List α) (k : ℤ) (samples : List (List α))
    (dists : α → α → Q) (iteration : ℕ) (r0 : Q × List (Medoid α))
    (rest : List (Q × List (Medoid α)))
    (hrs : runSpawns points k dists iteration samples = some (r0 :: rest)) :
    k_medoids_iterspawn points k samples dists iteration =
      some (pyMinBy (fun t => t.1) r0 rest) := by
  simp [k_medoids_iterspawn, hrs]

/-! ## Lemmas about `kRange` and the `k_medoids_iterall` loop -/

theorem kRange_succ (n : ℕ) : kRange (n + 1) = kRange n ++ [(n : ℤ) + 1] := rfl

theorem mem_kRange (n : ℕ) (kk : ℤ) : kk ∈ kRange n ↔ 1 ≤ kk ∧ kk ≤ n := by
  induction n with
  | zero => simp [kRange]; omega
  | succ m ih =>
    rw [kRange_succ, List.mem_append, ih]
    simp only [List.mem_singleton]
    omega

theorem kRange_ne_nil (n : ℕ) (hn : 1 ≤ n) : kRange n ≠ [] := by
  intro h
  have : (n : ℤ) ∈ kRange n := (mem_kRange n n).mpr ⟨by omega, le_refl _⟩
  rw [h] at this
  exact List.not_mem_nil _ this

theorem kRange_decomp (n : ℕ) :
    ∀ kk : ℤ, 1 ≤ kk → kk ≤ n →
      ∃ l2, kRange n = kRange (kk - 1).toNat ++ kk :: l2 := by
  induction n with
  | zero => intro kk h1 h2; omega
  | succ m ih =>
    intro kk h1 h2
    by_cases hm : kk ≤ m
    · obtain ⟨l2, hl2⟩ := ih kk h1 hm
      refine ⟨l2 ++ [(m : ℤ) + 1], ?_⟩
      rw [kRange_succ, hl2]
      simp
    · have hkk : kk = (m : ℤ) + 1 := by omega
      refine ⟨[], ?_⟩
      rw [kRange_succ, hkk]
      have : ((m : ℤ) + 1 - 1).toNat = m := by omega
      rw [this]

theorem exists_least_qual (P : ℤ → Prop) (kk : ℤ) (h1 : 1 ≤ kk) (hP : P kk) :
    ∃ k0 : ℤ, 1 ≤ k0 ∧ k0 ≤ kk ∧ P k0 ∧ ∀ j : ℤ, 1 ≤ j → j < k0 → ¬ P j := by
  classical
  have hcast : ((kk - 1).toNat : ℤ) + 1 = kk := by omega
  have hone : ∃ i : ℕ, P ((i : ℤ) + 1) := ⟨(kk - 1).toNat, by rw [hcast]; exact hP⟩
  refine ⟨(Nat.find hone : ℤ) + 1, by omega, ?_, Nat.find_spec hone, ?_⟩
  · have := Nat.find_min' hone (by rw [hcast]; exact hP)
    omega
  · intro j hj1 hjlt hPj
    have hc2 : ((j - 1).toNat : ℤ) + 1 = j := by omega
    have := Nat.find_min' hone (by rw [hc2]; exact hPj)
    omega

theorem iterallGo_break (points : List α) (diam_max : Q)
    (sampler : ℤ → List (List α)) (dists : α → α → Q) (iteration : ℕ) :
    ∀ (l1 : List ℤ) (kk : ℤ) (l2 : List ℤ) (r : Q × List (Medoid α)),
      (∀ j ∈ l1, ∃ rj, k_medoids_iterspawn points j (sampler j) dists iteration =
        some rj ∧ diam_max < rj.1) →
      k_medoids_iterspawn points kk (sampler kk) dists iteration = some r →
      r.1 ≤ diam_max →
      iterallGo points diam_max sampler dists iteration (l1 ++ kk :: l2) = some r := by
  intro l1
  induction l1 with
  | nil =>
    intro kk l2 r _ hr hle
    simp [iterallGo, hr, hle]
  | cons j t ih =>
    intro kk l2 r hl1 hr hle
    obtain ⟨rj, hrj, hgt⟩ := hl1 j (List.mem_cons_self _ _)
    have hemp : (t ++ kk :: l2).isEmpty = false := by
      simp
    rw [List.cons_append]
    simp only [iterallGo, hrj, Option.bind_eq_bind, Option.some_bind,
      if_neg (not_le.mpr hgt), hemp, Bool.false_eq_true, if_false]
    exact ih kk l2 r (fun j2 hj2 => hl1 j2 (List.mem_cons_of_mem j hj2)) hr hle

theorem iterallGo_last (points : List α) (diam_max : Q)
    (sampler : ℤ → List (List α)) (dists : α → α → Q) (iteration : ℕ) :
    ∀ (l1 : List ℤ) (kk : ℤ) (r : Q × List (Medoid α)),
      (∀ j ∈ l1, ∃ rj, k_medoids_iterspawn points j (sampler j) dists iteration =
        some rj ∧ diam_max < rj.1) →
      k_medoids_iterspawn points kk (sampler kk) dists iteration = some r →
      iterallGo points diam_max sampler dists iteration (l1 ++ [kk]) = some r := by
  intro l1
  induction l1 with
  | nil =>
    intro kk r _ hr
    by_cases hle : r.1 ≤ diam_max <;>
      simp [iterallGo, hr, hle]
  | cons j t ih =>
    intro kk r hl1 hr
    obtain ⟨rj, hrj, hgt⟩ := hl1 j (List.mem_cons_self _ _)
    have hemp : (t ++ [kk]).isEmpty = false := by
      simp
    rw [List.cons_append]
    simp only [iterallGo, hrj, Option.bind_eq_bind, Option.some_bind,
      if_neg (not_le.mpr hgt), hemp, Bool.false_eq_true, if_false]
    exact ih kk r (fun j2 hj2 => hl1 j2 (List.mem_cons_of_mem j hj2)) hr

/-! ## Lemmas about `build_distances` -/

theorem dUpdate_isSome (g : α → α → Option Q) (a b : α) (v : Q) (x y : α)
    (h : (g x y).isSome) : (dUpdate g a b v x y).isSome := by
  unfold dUpdate
  split_ifs
  · rfl
  · exact h

theorem bdStep_isSome (distance : α → α → Q) (p : α)
    (acc : (α → α → Option Q) × ℕ) (q x y : α) (h : (acc.1 x y).isSome) :
    ((bdStep distance p acc q).1 x y).isSome :=
  dUpdate_isSome _ _ _ _ _ _ (dUpdate_isSome _ _ _ _ _ _ h)

theorem bdStep_writes (distance : α → α → Q) (p : α)
    (acc : (α → α → Option Q) × ℕ) (q : α) :
    ((bdStep distance p acc q).1 p q).isSome ∧
      ((bdStep distance p acc q).1 q p).isSome := by
  constructor
  · simp only [bdStep, dUpdate]
    split_ifs with h1 h2
    · rfl
    · rfl
    · exact absurd (by simp) h2
  · simp only [bdStep, dUpdate]
    split_ifs with h1 h2
    · rfl
    · rfl
    · exact absurd (by simp) h1

theorem bdFold_isSome (distance : α → α → Q) (p : α) :
    ∀ (l : List α) (acc : (α → α → Option Q) × ℕ) (x y : α),
      (acc.1 x y).isSome →
      ((l.foldl (bdStep distance p) acc).1 x y).isSome := by
  intro l
  induction l with
  | nil => intro acc x y h; exact h
  | cons q t ih =>
    intro acc x y h
    exact ih (bdStep distance p acc q) x y (bdStep_isSome distance p acc q x y h)

theorem bdFold_writes (distance : α → α → Q) (p : α) :
    ∀ (l : List α) (acc : (α → α → Option Q) × ℕ) (q : α), q ∈ l →
      ((l.foldl (bdStep distance p) acc).1 p q).isSome ∧
      ((l.foldl (bdStep distance p) acc).1 q p).isSome := by
  intro l
  induction l with
  | nil => intro acc q h; exact absurd h (List.not_mem_nil q)
  | cons q0 t ih =>
    intro acc q hq
    rcases List.mem_cons.mp hq with hq | hq
    · subst hq
      exact ⟨bdFold_isSome distance p t _ p q (bdStep_writes distance p acc q).1,
        bdFold_isSome distance p t _ q p (bdStep_writes distance p acc q).2⟩
    · exact ih (bdStep distance p acc q0) q hq

theorem bdStep_vals (distance : α → α → Q)
    (hsym : ∀ a b, distance a b = distance b a) (p q : α)
    (acc : (α → α → Option Q) × ℕ)
    (hacc : ∀ x y, acc.1 x y = none ∨ acc.1 x y = some (distance x y)) :
    ∀ x y, (bdStep distance p acc q).1 x y = none ∨
      (bdStep distance p acc q).1 x y = some (distance x y) := by
  intro x y
  simp only [bdStep, dUpdate]
  split_ifs with h1 h2
  · right
    obtain ⟨rfl, rfl⟩ := h1
    rw [hsym]
  · right
    obtain ⟨rfl, rfl⟩ := h2
    rfl
  · exact hacc x y

theorem bdFold_vals (distance : α → α → Q)
    (hsym : ∀ a b, distance a b = distance b a) (p : α) :
    ∀ (l : List α) (acc : (α → α → Option Q) × ℕ),
      (∀ x y, acc.1 x y = none ∨ acc.1 x y = some (distance x y)) →
      ∀ x y, (l.foldl (bdStep distance p) acc).1 x y = none ∨
        (l.foldl (bdStep distance p) acc).1 x y = some (distance x y) := by
  intro l
  induction l with
  | nil => intro acc h; exact h
  | cons q t ih =>
    intro acc h
    exact ih (bdStep distance p acc q) (bdStep_vals distance hsym p q acc h)

theorem bdFold_count (distance : α → α → Q) (p : α) :
    ∀ (l : List α) (acc : (α → α → Option Q) × ℕ),
      (l.foldl (bdStep distance p) acc).2 = acc.2 + l.length := by
  intro l
  induction l with
  | nil => intro acc; rfl
  | cons q t ih =>
    intro acc
    have hstep2 : (bdStep distance p acc q).2 = acc.2 + 1 := rfl
    rw [List.foldl_cons, ih (bdStep distance p acc q), hstep2, List.length_cons]
    omega

theorem outerFold_isSome (distance : α → α → Q) (points : List α) :
    ∀ (l : List α) (acc : (α → α → Option Q) × ℕ) (x y : α),
      (acc.1 x y).isSome →
      ((l.foldl (fun acc2 p => points.foldl (bdStep distance p) acc2) acc).1 x y).isSome := by
  intro l
  induction l with
  | nil => intro acc x y h; exact h
  | cons p t ih =>
    intro acc x y h
    exact ih _ x y (bdFold_isSome distance p points acc x y h)

theorem build_distances_isSome (points : List α) (distance : α → α → Q)
    (a b : α) (ha : a ∈ points) (hb : b ∈ points) :
    ((build_distances points distance).1 a b).isSome ∧
      ((build_distances points distance).1 b a).isSome := by
  unfold build_distances
  have main : ∀ (l : List α) (acc : (α → α → Option Q) × ℕ), a ∈ l →
      ((l.foldl (fun acc2 p => points.foldl (bdStep distance p) acc2) acc).1 a b).isSome ∧
      ((l.foldl (fun acc2 p => points.foldl (bdStep distance p) acc2) acc).1 b a).isSome := by
    intro l
    induction l with
    | nil => intro acc h; exact absurd h (List.not_mem_nil a)
    | cons p t ih =>
      intro acc hal
      rcases List.mem_cons.mp hal with h | h
      · subst h
        exact ⟨outerFold_isSome distance points t _ a b
            (bdFold_writes distance a points acc b hb).1,
          outerFold_isSome distance points t _ b a
            (bdFold_writes distance a points acc b hb).2⟩
      · exact ih _ h
  exact main points _ ha

theorem build_distances_vals (points : List α) (distance : α → α → Q)
    (hsym : ∀ a b, distance a b = distance b a) (x y : α) :
    (build_distances points distance).1 x y = none ∨
      (build_distances points distance).1 x y = some (distance x y) := by
  unfold build_distances
  have main : ∀ (l : List α) (acc : (α → α → Option Q) × ℕ),
      (∀ x2 y2, acc.1 x2 y2 = none ∨ acc.1 x2 y2 = some (distance x2 y2)) →
      ∀ x2 y2,
        ((l.foldl (fun acc2 p => points.foldl (bdStep distance p) acc2) acc).1 x2 y2) = none ∨
        ((l.foldl (fun acc2 p => points.foldl (bdStep distance p) acc2) acc).1 x2 y2) =
          some (distance x2 y2) := by
    intro l
    induction l with
    | nil => intro acc h; exact h
    | cons p t ih =>
      intro acc h
      exact ih _ (bdFold_vals distance hsym p points acc h)
  exact main points _ (fun _ _ => Or.inl rfl) x y

theorem build_distances_count (points : List α) (distance : α → α → Q) :
    (build_distances points distance).2 = points.length * points.length := by
  unfold build_distances
  have main : ∀ (l : List α) (acc : (α → α → Option Q) × ℕ),
      (l.foldl (fun acc2 p => points.foldl (bdStep distance p) acc2) acc).2 =
        acc.2 + l.length * points.length := by
    intro l
    induction l with
    | nil => intro acc; simp
    | cons p t ih =>
      intro acc
      simp only [List.foldl_cons, ih, bdFold_count, List.length_cons]
      ring
  rw [main points _]
  simp

/-! ## Composite helpers for the claims -/

theorem elements_nodup (points : List α) (ms : List (Medoid α))
    (hgood : GoodPartition points ms) (hnd : points.Nodup) :
    ∀ m ∈ ms, m.elements.Nodup := by
  have h1 : (elemsOf ms).Nodup := hgood.1.symm.nodup hnd
  intro m hm
  exact (List.nodup_flatten.mp h1).1 m.elements (List.mem_map_of_mem _ hm)

theorem two_mem_of_length (l : List α) (h : 2 ≤ l.length) (hnd : l.Nodup) :
    ∃ a ∈ l, ∃ b ∈ l, a ≠ b := by
  cases l with
  | nil => simp at h
  | cons x t =>
    cases t with
    | nil => simp at h
    | cons y t2 =>
      refine ⟨x, List.mem_cons_self _ _, y,
        List.mem_cons_of_mem x (List.mem_cons_self _ _), ?_⟩
      intro hxy
      subst hxy
      exact (List.nodup_cons.mp hnd).1 (List.mem_cons_self _ _)

theorem k_medoids_run_props (points : List α) (kk : ℤ) (s : List α)
    (dists : α → α → Q) (iteration : ℕ) (hk : 0 ≤ kk) (hpts : points ≠ [])
    (hsne : s ≠ []) (hit : 1 ≤ iteration) (r : Q × List (Medoid α))
    (hrun : k_medoids points kk s dists iteration = some r) :
    GoodPartition points r.2 ∧ (∀ m ∈ r.2, KernelElected dists m) ∧
      r.2.length ≤ s.length ∧ r.1 ∈ pairList dists r.2 ∧
      ∀ y ∈ pairList dists r.2, y ≤ r.1 := by
  obtain ⟨d, ms, heq, hgood, hker, hlen, hdmem, hdub⟩ :=
    k_medoids_spec points kk s dists iteration hk hpts hsne hit
  rw [heq] at hrun
  have hr : r = (d, ms) := (Option.some.injEq _ _).mp hrun.symm
  subst hr
  exact ⟨hgood, hker, hlen, hdmem, hdub⟩

theorem diam_nonneg (dists : α → α → Q) (points : List α)
    (ms : List (Medoid α)) (d : Q) (hgood : GoodPartition points ms)
    (hpts : points ≠ []) (hdiag : ∀ a, dists a a = 0)
    (hdub : ∀ y ∈ pairList dists ms, y ≤ d) : 0 ≤ d := by
  obtain ⟨p0, hp0⟩ := List.exists_mem_of_ne_nil points hpts
  obtain ⟨m, hm, hmem⟩ := (mem_elemsOf ms p0).mp (hgood.1.symm.subset hp0)
  have h2 := hdub (dists p0 p0)
    ((mem_pairList dists ms _).mpr ⟨m, hm, p0, hmem, p0, hmem, rfl⟩)
  rw [hdiag p0] at h2
  exact h2

theorem validSample_nonempty (points : List α) (kk : ℤ) (s : List α)
    (hv : ValidSample points kk s) (hkk : 1 ≤ kk) (hpts : points ≠ []) :
    s ≠ [] := by
  intro h0
  have hn : 1 ≤ points.length := List.length_pos.mpr hpts
  rw [h0] at hv
  have h2 := hv.2
  simp at h2
  omega

theorem validSample_full_perm (points : List α) (s : List α)
    (hv : ValidSample points (points.length : ℤ) s) : List.Perm s points := by
  have hsub : s.Subperm points := List.subperm_ext_iff.mpr hv.1
  have hlen : s.length = points.length := by
    have h2 := hv.2
    simpa using h2
  obtain ⟨l, hlp, hls⟩ := hsub
  have hl : l = points := hls.eq_of_length (by rw [hlp.length_eq, hlen])
  subst hl
  exact hlp.symm

theorem iterspawn_spec_of (points : List α) (kk : ℤ) (samples : List (List α))
    (dists : α → α → Q) (iteration : ℕ) (hpts : points ≠ [])
    (hit : 1 ≤ iteration) (hkk : 1 ≤ kk) (hlen : 1 ≤ samples.length)
    (hvalid : ∀ s ∈ samples, ValidSample points kk s) :
    ∃ r, k_medoids_iterspawn points kk samples dists iteration = some r ∧
      ∃ s ∈ samples, k_medoids points kk s dists iteration = some r := by
  have hsome : ∀ s ∈ samples,
      ∃ r2, k_medoids points kk s dists iteration = some r2 := by
    intro s hs
    have hsne : s ≠ [] := validSample_nonempty points kk s (hvalid s hs) hkk hpts
    obtain ⟨d, ms, heq, -⟩ :=
      k_medoids_spec points kk s dists iteration (by omega) hpts hsne hit
    exact ⟨(d, ms), heq⟩
  obtain ⟨rs, hrs, hlen2, hmem⟩ := runSpawns_some points kk dists iteration samples hsome
  cases rs with
  | nil =>
    exfalso
    simp at hlen2
    omega
  | cons r0 rest =>
    refine ⟨pyMinBy (fun t => t.1) r0 rest,
      iterspawn_eq points kk samples dists iteration r0 rest hrs, ?_⟩
    exact hmem _ (pyMinBy_mem (fun t => t.1) rest r0)

theorem sampler_runs (points : List α) (sampler : ℤ → List (List α))
    (dists : α → α → Q) (iteration : ℕ) (spawn : ℕ) (hpts : points ≠ [])
    (hit : 1 ≤ iteration) (hspawn : 1 ≤ spawn)
    (hsampler : ValidSampler points spawn sampler) :
    ∀ kk ∈ kRange points.length,
      ∃ r, k_medoids_iterspawn points kk (sampler kk) dists iteration = some r ∧
        ∃ s ∈ sampler kk, k_medoids points kk s dists iteration = some r := by
  intro kk hkk
  obtain ⟨hlen, hvalid⟩ := hsampler kk hkk
  obtain ⟨h1, h2⟩ := (mem_kRange _ _).mp hkk
  exact iterspawn_spec_of points kk (sampler kk) dists iteration hpts hit h1
    (by omega) hvalid

theorem iterspawn_full_zero (points : List α) (samples : List (List α))
    (dists : α → α → Q) (iteration : ℕ) (hpts : points ≠ [])
    (hit : 1 ≤ iteration) (hlen : 1 ≤ samples.length)
    (hvalid : ∀ s ∈ samples, ValidSample points (points.length : ℤ) s)
    (hnn : ∀ a b, 0 ≤ dists a b) (hsym : ∀ a b, dists a b = dists b a)
    (hdiag : ∀ a, dists a a = 0)
    (htri : ∀ a b c, dists a b ≤ dists a c + dists c b) :
    ∃ r, k_medoids_iterspawn points (points.length : ℤ) samples dists iteration =
      some r ∧ r.1 = 0 := by
  have hn : 1 ≤ points.length := List.length_pos.mpr hpts
  have hzero : ∀ s ∈ samples, ∃ ms,
      k_medoids points (points.length : ℤ) s dists iteration = some (0, ms) := by
    intro s hs
    obtain ⟨ms, heq, -⟩ := k_medoids_full points (points.length : ℤ) s dists
      iteration (by omega) hpts hit (validSample_full_perm points s (hvalid s hs))
      hnn hsym hdiag htri
    exact ⟨ms, heq⟩
  obtain ⟨r, hr, s, hsmem, hrun⟩ := iterspawn_spec_of points (points.length : ℤ)
    samples dists iteration hpts hit (by omega) hlen hvalid
  obtain ⟨ms, hms⟩ := hzero s hsmem
  rw [hms] at hrun
  have hr2 : r = (0, ms) := (Option.some.injEq _ _).mp hrun.symm
  exact ⟨r, hr, by rw [hr2]⟩

theorem iterall_first_qual (points : List α) (diam_max : Q)
    (sampler : ℤ → List (List α)) (dists : α → α → Q) (iteration spawn : ℕ)
    (hpts : points ≠ []) (hit : 1 ≤ iteration) (hspawn : 1 ≤ spawn)
    (hsampler : ValidSampler points spawn sampler)
    (hq : ∃ kk ∈ kRange points.length, ∃ r,
      k_medoids_iterspawn points kk (sampler kk) dists iteration = some r ∧
        r.1 ≤ diam_max) :
    ∃ k0 r, 1 ≤ k0 ∧ k0 ≤ (points.length : ℤ) ∧
      k_medoids_iterspawn points k0 (sampler k0) dists iteration = some r ∧
      r.1 ≤ diam_max ∧
      k_medoids_iterall points diam_max sampler dists iteration = some r ∧
      (r.2.length : ℤ) ≤ k0 ∧
      ∀ j ∈ kRange points.length, j < k0 →
        ∀ rj, k_medoids_iterspawn points j (sampler j) dists iteration = some rj →
          diam_max < rj.1 := by
  obtain ⟨kk, hkkmem, r1, hr1, hle1⟩ := hq
  obtain ⟨hk1, hk2⟩ := (mem_kRange _ _).mp hkkmem
  obtain ⟨k0, h01, h0le, hP0, hmin⟩ := exists_least_qual
    (fun j => ∃ rj,
      k_medoids_iterspawn points j (sampler j) dists iteration = some rj ∧
        rj.1 ≤ diam_max)
    kk hk1 ⟨r1, hr1, hle1⟩
  obtain ⟨r, hr, hrle⟩ := hP0
  have h0n : k0 ≤ (points.length : ℤ) := le_trans h0le hk2
  have hruns := sampler_runs points sampler dists iteration spawn hpts hit
    hspawn hsampler
  obtain ⟨l2, hsplit⟩ := kRange_decomp points.length k0 h01 h0n
  have hl1 : ∀ j ∈ kRange (k0 - 1).toNat, ∃ rj,
      k_medoids_iterspawn points j (sampler j) dists iteration = some rj ∧
        diam_max < rj.1 := by
    intro j hj
    obtain ⟨hj1, hj2⟩ := (mem_kRange _ _).mp hj
    have hjmem : j ∈ kRange points.length :=
      (mem_kRange _ _).mpr ⟨hj1, by omega⟩
    obtain ⟨rj, hrj, -⟩ := hruns j hjmem
    refine ⟨rj, hrj, ?_⟩
    by_contra hnot
    exact hmin j hj1 (by omega) ⟨rj, hrj, not_lt.mp hnot⟩
  have hloop := iterallGo_break points diam_max sampler dists iteration
    (kRange (k0 - 1).toNat) k0 l2 r hl1 hr hrle
  rw [← hsplit] at hloop
  have hiter : k_medoids_iterall points diam_max sampler dists iteration = some r := by
    rw [k_medoids_iterall, if_neg (by simpa [List.isEmpty_iff] using hpts)]
    exact hloop
  have h0mem : k0 ∈ kRange points.length := (mem_kRange _ _).mpr ⟨h01, h0n⟩
  obtain ⟨r2, hr2, s, hsmem, hrun2⟩ := hruns k0 h0mem
  have hr2r : r2 = r := by
    rw [hr] at hr2
    exact (Option.some.injEq _ _).mp hr2.symm
  subst hr2r
  have hv := (hsampler k0 h0mem).2 s hsmem
  have hsne := validSample_nonempty points k0 s hv h01 hpts
  obtain ⟨-, -, hlen, -, -⟩ := k_medoids_run_props points k0 s dists iteration
    (by omega) hpts hsne hit r2 hrun2
  have hclen : (r2.2.length : ℤ) ≤ k0 := by
    have h2 := hv.2
    have hn : 1 ≤ points.length := List.length_pos.mpr hpts
    omega
  refine ⟨k0, r2, h01, h0n, hr, hrle, hiter, hclen, ?_⟩
  intro j hjmem hjlt rj hrj
  obtain ⟨hj1, -⟩ := (mem_kRange _ _).mp hjmem
  by_contra hnot
  exact hmin j hj1 hjlt ⟨rj, hrj, not_lt.mp hnot⟩

/-! ## Properties of the concrete fixture distances -/

theorem absDist_nonneg (a b : ℤ) : 0 ≤ absDist a b := Nat.cast_nonneg _

theorem absDist_diag (a : ℤ) : absDist a a = 0 := by simp [absDist]

theorem absDist_symm (a b : ℤ) : absDist a b = absDist b a := by
  unfold absDist
  congr 1
  omega

theorem absDist_sep (a b : ℤ) (h : a ≠ b) : 0 < absDist a b := by
  unfold absDist
  have h2 : 0 < (b - a).natAbs := by omega
  exact_mod_cast h2

theorem absDist_tri (a b c : ℤ) : absDist a b ≤ absDist a c + absDist c b := by
  unfold absDist
  have h2 : (b - a).natAbs ≤ (c - a).natAbs + (b - c).natAbs := by omega
  exact_mod_cast h2

theorem zeroDist_nonneg (a b : ℤ) : 0 ≤ zeroDist a b := le_refl 0

theorem zeroDist_symm (a b : ℤ) : zeroDist a b = zeroDist b a := rfl

theorem zeroDist_diag (a : ℤ) : zeroDist a a = 0 := rfl

theorem zeroDist_tri (a b c : ℤ) :
    zeroDist a b ≤ zeroDist a c + zeroDist c b := by
  simp [zeroDist]

/-! ## The claims -/

/-- C1: for every non-empty input list, every k with 1 ≤ k ≤ n, every
distance cache, every sample satisfying the `random.sample` contract, and
every iteration budget ≥ 1, `k_medoids` returns a partition: the
concatenation of the returned medoids' member lists is a permutation of the
input (every input point exactly once, no duplicates, no omissions) and no
returned medoid has an empty member list. -/
theorem C1_k_medoids_partition (points : List α) (k : ℤ) (sample : List α)
    (dists : α → α → Q) (iteration : ℕ) (hpts : points ≠ [])
    (hs : ValidSample points k sample) (hk1 : 1 ≤ k)
    (hkn : k ≤ (points.length : ℤ)) (hit : 1 ≤ iteration) :
    ∃ d ms, k_medoids points k sample dists iteration = some (d, ms) ∧
      List.Perm (elemsOf ms) points ∧ ∀ m ∈ ms, m.elements ≠ [] := by
  have hsne : sample ≠ [] := validSample_nonempty points k sample hs hk1 hpts
  obtain ⟨d, ms, heq, hgood, -⟩ :=
    k_medoids_spec points k sample dists iteration (by omega) hpts hsne hit
  exact ⟨d, ms, heq, hgood.1, hgood.2⟩

theorem C1_k_medoids_partition_witness :
    ∃ d ms, k_medoids [(1:ℤ), 2, 3, 4, 5, 6, 7] 2 [3, 6] absDist 20 =
        some (d, ms) ∧
      List.Perm (elemsOf ms) [(1:ℤ), 2, 3, 4, 5, 6, 7] ∧
      ∀ m ∈ ms, m.elements ≠ [] :=
  C1_k_medoids_partition [(1:ℤ), 2, 3, 4, 5, 6, 7] 2 [3, 6] absDist 20
    (by decide) ⟨by decide, by decide⟩ (by decide) (by decide) (by decide)

/-- C7: under the same valid inputs as C1, every returned medoid has a
nonempty member list, its kernel is one of its own members, and the kernel
is the first member (in member order) minimizing the sum of distances to the
members — the Python `min` tie-break. -/
theorem C7_kernel_elected (points : List α) (k : ℤ) (sample : List α)
    (dists : α → α → Q) (iteration : ℕ) (hpts : points ≠ [])
    (hs : ValidSample points k sample) (hk1 : 1 ≤ k)
    (hkn : k ≤ (points.length : ℤ)) (hit : 1 ≤ iteration) :
    ∃ d ms, k_medoids points k sample dists iteration = some (d, ms) ∧
      ∀ m ∈ ms, m.elements ≠ [] ∧ m.kernel ∈ m.elements ∧
        IsFirstMinBy (sumDists dists m.elements) m.elements m.kernel := by
  have hsne : sample ≠ [] := validSample_nonempty points k sample hs hk1 hpts
  obtain ⟨d, ms, heq, hgood, hker, -⟩ :=
    k_medoids_spec points k sample dists iteration (by omega) hpts hsne hit
  refine ⟨d, ms, heq, ?_⟩
  intro m hm
  exact ⟨hgood.2 m hm, isFirstMin_mem _ _ _ (hker m hm), hker m hm⟩

theorem C7_kernel_elected_witness :
    ∃ d ms, k_medoids [(1:ℤ), 2, 3, 4, 5, 6, 7] 3 [2, 5, 7] absDist 20 =
        some (d, ms) ∧
      ∀ m ∈ ms, m.elements ≠ [] ∧ m.kernel ∈ m.elements ∧
        IsFirstMinBy (sumDists absDist m.elements) m.elements m.kernel :=
  C7_kernel_elected [(1:ℤ), 2, 3, 4, 5, 6, 7] 3 [2, 5, 7] absDist 20
    (by decide) ⟨by decide, by decide⟩ (by decide) (by decide) (by decide)

/-- C3 counterexample: calling `k_medoids` with k = 3 on the two-point set
`[0, 1]` (so k > n) does not fail at all: with the sample of the clamped
size min 3 2 = 2 demanded by source lines 107–108, it returns a normal
partition (diameter 0, two singleton medoids). -/
theorem C3_counterexample :
    ValidSample [(0:ℤ), 1] 3 [0, 1] ∧
      k_medoids [(0:ℤ), 1] 3 [0, 1] absDist 20 =
        some (0, [⟨0, [0]⟩, ⟨1, [1]⟩]) := by
  refine ⟨⟨by decide, by decide⟩, by decide⟩

/-- C3 amended: k < 0 fails (inside `random.sample`) and k = 0 fails (at the
first assignment step, after the trivial empty sampling but before any
distance is consumed from a medoid); but k > n does **not** fail — source
lines 107–108 clamp k to n and a normal partition is returned. -/
theorem C3_k_bounds (points : List α) (k : ℤ) (sample : List α)
    (dists : α → α → Q) (iteration : ℕ) (hpts : points ≠ [])
    (hs : ValidSample points k sample) (hit : 1 ≤ iteration) :
    (k < 0 → k_medoids points k sample dists iteration = none) ∧
    (k = 0 → k_medoids points k sample dists iteration = none) ∧
    ((points.length : ℤ) < k →
      (k_medoids points k sample dists iteration).isSome = true) := by
  refine ⟨fun hk => k_medoids_neg points k sample dists iteration hk,
    fun hk => ?_, fun hk => ?_⟩
  · subst hk
    have hsnil : sample = [] := by
      have h2 := hs.2
      simpa using h2
    subst hsnil
    exact k_medoids_nil_sample points 0 dists iteration (le_refl 0) hpts hit
  · have hn : 1 ≤ points.length := List.length_pos.mpr hpts
    have hk1 : 1 ≤ k := by omega
    have hsne := validSample_nonempty points k sample hs hk1 hpts
    obtain ⟨d, ms, heq, -⟩ :=
      k_medoids_spec points k sample dists iteration (by omega) hpts hsne hit
    rw [heq]
    rfl

theorem C3_k_bounds_witness :
    ((3:ℤ) < 0 → k_medoids [(0:ℤ), 1] 3 [0, 1] absDist 20 = none) ∧
    ((3:ℤ) = 0 → k_medoids [(0:ℤ), 1] 3 [0, 1] absDist 20 = none) ∧
    (((List.length [(0:ℤ), 1] : ℕ) : ℤ) < 3 →
      (k_medoids [(0:ℤ), 1] 3 [0, 1] absDist 20).isSome = true) :=
  C3_k_bounds [(0:ℤ), 1] 3 [0, 1] absDist 20 (by decide)
    ⟨by decide, by decide⟩ (by decide)

/-- C4 counterexample: with the all-zero distance cache — which is
non-negative with zero diagonal, as the claim requires — a k = 1 run on two
points returns diameter 0 although its single medoid has two members, so
"diameter 0 exactly when every medoid has one member" fails as stated. -/
theorem C4_counterexample :
    ValidSample [(0:ℤ), 1] 1 [0] ∧
      k_medoids [(0:ℤ), 1] 1 [0] zeroDist 20 = some (0, [⟨0, [0, 1]⟩]) ∧
      (Medoid.mk (0:ℤ) [(0:ℤ), 1]).elements.length ≠ 1 := by
  exact ⟨⟨by decide, by decide⟩, by decide, by decide⟩

/-- C4 amended: under valid inputs with a non-negative, zero-diagonal cache
the diameter is ≥ 0, and it is 0 exactly when every returned medoid has
exactly one member **provided additionally** (as the counterexample forces)
that the input points are pairwise distinct and distinct points are at
strictly positive distance.  Without the extra hypotheses only the
"all singletons → diameter 0" direction survives. -/
theorem C4_diam_zero_iff (points : List α) (k : ℤ) (sample : List α)
    (dists : α → α → Q) (iteration : ℕ) (hpts : points ≠ [])
    (hs : ValidSample points k sample) (hk1 : 1 ≤ k)
    (hkn : k ≤ (points.length : ℤ)) (hit : 1 ≤ iteration)
    (hnn : ∀ a b, 0 ≤ dists a b) (hdiag : ∀ a, dists a a = 0)
    (hnd : points.Nodup) (hsep : ∀ a b, a ≠ b → 0 < dists a b) :
    ∃ d ms, k_medoids points k sample dists iteration = some (d, ms) ∧
      0 ≤ d ∧ (d = 0 ↔ ∀ m ∈ ms, m.elements.length = 1) := by
  have hsne : sample ≠ [] := validSample_nonempty points k sample hs hk1 hpts
  obtain ⟨d, ms, heq, hgood, hker, hlen, hdmem, hdub⟩ :=
    k_medoids_spec points k sample dists iteration (by omega) hpts hsne hit
  refine ⟨d, ms, heq, diam_nonneg dists points ms d hgood hpts hdiag hdub, ?_, ?_⟩
  · intro hd0 m hm
    have hne := hgood.2 m hm
    have hnodup := elements_nodup points ms hgood hnd m hm
    by_contra hlen1
    have hlen0 : m.elements.length ≠ 0 := by
      simpa [List.length_eq_zero] using hne
    have hlen2 : 2 ≤ m.elements.length := by omega
    obtain ⟨a, ha, b, hb, hab⟩ := two_mem_of_length m.elements hlen2 hnodup
    have hpos := hsep a b hab
    have hub := hdub (dists a b)
      ((mem_pairList dists ms _).mpr ⟨m, hm, a, ha, b, hb, rfl⟩)
    rw [hd0] at hub
    exact absurd (lt_of_lt_of_le hpos hub) (lt_irrefl 0)
  · intro hall
    have hub0 : ∀ y ∈ pairList dists ms, y ≤ 0 := by
      intro y hy
      obtain ⟨m, hm, a, ha, b, hb, rfl⟩ := (mem_pairList dists ms y).mp hy
      have h1 := hall m hm
      have hab : a = b := by
        cases hel : m.elements with
        | nil => rw [hel] at ha; exact absurd ha (List.not_mem_nil a)
        | cons x t =>
          rw [hel] at h1 ha hb
          have ht : t = [] := by
            simpa using h1
          subst ht
          simp at ha hb
          rw [ha, hb]
      rw [hab, hdiag b]
    have hd_le : d ≤ 0 := hub0 d hdmem
    have hd_ge : 0 ≤ d := diam_nonneg dists points ms d hgood hpts hdiag hdub
    exact le_antisymm hd_le hd_ge

theorem C4_diam_zero_iff_witness :
    ∃ d ms, k_medoids [(0:ℤ), 1] 1 [0] absDist 20 = some (d, ms) ∧
      0 ≤ d ∧ (d = 0 ↔ ∀ m ∈ ms, m.elements.length = 1) :=
  C4_diam_zero_iff [(0:ℤ), 1] 1 [0] absDist 20 (by decide)
    ⟨by decide, by decide⟩ (by decide) (by decide) (by decide)
    absDist_nonneg absDist_diag (by decide) absDist_sep

/-- C9: `k_medoids_iterall` on an empty input fails at entry (Python raises
`ValueError('No points given!')`, modelled by `none`): the result is `none`
for every sampler, bound, distance cache and budget, so the failure cannot
depend on — and hence precedes — any sampling, any distance lookup and any
spawn-selector invocation. -/
theorem C9_iterall_empty (diam_max : Q) (sampler : ℤ → List (List α))
    (dists : α → α → Q) (iteration : ℕ) :
    k_medoids_iterall ([] : List α) diam_max sampler dists iteration = none := rfl

/-- C8: when the supplied distance function is symmetric (with zero
diagonal), the cache built by `build_distances` satisfies
`res[a][b] = res[b][a] = distance(a, b)` for every pair of input points, and
`distance` is invoked at most n² times (the count is exactly n²). -/
theorem C8_build_distances (points : List α) (distance : α → α → Q)
    (hsym : ∀ a b, distance a b = distance b a)
    (hdiag : ∀ a, distance a a = 0)
    (a b : α) (ha : a ∈ points) (hb : b ∈ points) :
    (build_distances points distance).1 a b = some (distance a b) ∧
    (build_distances points distance).1 b a = some (distance a b) ∧
    (build_distances points distance).2 ≤ points.length * points.length := by
  obtain ⟨h1, h2⟩ := build_distances_isSome points distance a b ha hb
  refine ⟨?_, ?_, le_of_eq (build_distances_count points distance)⟩
  · rcases build_distances_vals points distance hsym a b with h | h
    · rw [h] at h1; exact absurd h1 (by simp)
    · exact h
  · rcases build_distances_vals points distance hsym b a with h | h
    · rw [h] at h2; exact absurd h2 (by simp)
    · rw [h, hsym b a]

theorem C8_build_distances_witness :
    (build_distances [(0:ℤ), 1, 2] absDist).1 0 2 = some (absDist 0 2) ∧
    (build_distances [(0:ℤ), 1, 2] absDist).1 2 0 = some (absDist 0 2) ∧
    (build_distances [(0:ℤ), 1, 2] absDist).2 ≤
      (List.length [(0:ℤ), 1, 2]) * (List.length [(0:ℤ), 1, 2]) :=
  C8_build_distances [(0:ℤ), 1, 2] absDist absDist_symm absDist_diag 0 2
    (by decide) (by decide)

/-- C5: the spawn selector's result is the true minimum of its runs by
diameter: it is one of the runs, its diameter is ≤ every run's diameter, and
among the runs it is the first one attaining that minimum (ties go to the
lowest spawn index). -/
theorem C5_iterspawn_min (points : List α) (k : ℤ) (samples : List (List α))
    (dists : α → α → Q) (iteration : ℕ) (rs : List (Q × List (Medoid α)))
    (hrs : runSpawns points k dists iteration samples = some rs)
    (hne : rs ≠ []) :
    ∃ r, k_medoids_iterspawn points k samples dists iteration = some r ∧
      r ∈ rs ∧ (∀ r2 ∈ rs, r.1 ≤ r2.1) ∧
      ∃ l1 l2, rs = l1 ++ r :: l2 ∧ (∀ r2 ∈ l1, r.1 < r2.1) ∧
        ∀ r2 ∈ l2, r.1 ≤ r2.1 := by
  cases rs with
  | nil => exact absurd rfl hne
  | cons r0 rest =>
    have hfirst := pyMinBy_first (fun t => t.1) rest r0
    refine ⟨pyMinBy (fun t => t.1) r0 rest,
      iterspawn_eq points k samples dists iteration r0 rest hrs,
      pyMinBy_mem (fun t => t.1) rest r0,
      isFirstMin_le (fun t => t.1) (r0 :: rest) _ hfirst, hfirst⟩

theorem C5_iterspawn_min_witness :
    ∃ r, k_medoids_iterspawn [(0:ℤ), 1] 1 [[0], [1]] absDist 20 = some r ∧
      r ∈ [((1:ℤ), [Medoid.mk (0:ℤ) [0, 1]]), ((1:ℤ), [Medoid.mk (0:ℤ) [0, 1]])] ∧
      (∀ r2 ∈ [((1:ℤ), [Medoid.mk (0:ℤ) [0, 1]]),
        ((1:ℤ), [Medoid.mk (0:ℤ) [0, 1]])], r.1 ≤ r2.1) ∧
      ∃ l1 l2, [((1:ℤ), [Medoid.mk (0:ℤ) [0, 1]]),
          ((1:ℤ), [Medoid.mk (0:ℤ) [0, 1]])] = l1 ++ r :: l2 ∧
        (∀ r2 ∈ l1, r.1 < r2.1) ∧ ∀ r2 ∈ l2, r.1 ≤ r2.1 :=
  C5_iterspawn_min [(0:ℤ), 1] 1 [[0], [1]] absDist 20
    [((1:ℤ), [Medoid.mk (0:ℤ) [0, 1]]), ((1:ℤ), [Medoid.mk (0:ℤ) [0, 1]])]
    (by decide) (by decide)

theorem sampler01_valid : ValidSampler [(0:ℤ), 1] 1 sampler01 := by
  intro kk hkk
  have hk12 : kk = 1 ∨ kk = 2 := by
    have h := (mem_kRange 2 kk).mp hkk
    omega
  rcases hk12 with rfl | rfl
  · refine ⟨by decide, ?_⟩
    intro s hs
    have hs1 : s = [0] := by simpa [sampler01] using hs
    subst hs1
    exact ⟨by decide, by decide⟩
  · refine ⟨by decide, ?_⟩
    intro s hs
    have hs1 : s = [0, 1] := by simpa [sampler01] using hs
    subst hs1
    exact ⟨by decide, by decide⟩

/-- C2: whenever some k in [1, n] has a spawn-selector result with diameter
≤ `diam_max`, `k_medoids_iterall` returns the result of the smallest such k
(the loop tries k = 1, 2, … in increasing order and stops there): the
returned result comes from that k's spawn selector, its diameter is
≤ `diam_max`, every smaller k's spawn result had diameter > `diam_max`
within the same spawn budget, and the returned cluster count is at most that
k (hence no k below the cluster count qualified either). -/
theorem C2_iterall_first (points : List α) (diam_max : Q)
    (sampler : ℤ → List (List α)) (dists : α → α → Q) (iteration spawn : ℕ)
    (hpts : points ≠ []) (hit : 1 ≤ iteration) (hspawn : 1 ≤ spawn)
    (hsampler : ValidSampler points spawn sampler)
    (hq : ∃ kk ∈ kRange points.length, ∃ r,
      k_medoids_iterspawn points kk (sampler kk) dists iteration = some r ∧
        r.1 ≤ diam_max) :
    ∃ k0 r, 1 ≤ k0 ∧ k0 ≤ (points.length : ℤ) ∧
      k_medoids_iterspawn points k0 (sampler k0) dists iteration = some r ∧
      r.1 ≤ diam_max ∧
      k_medoids_iterall points diam_max sampler dists iteration = some r ∧
      (r.2.length : ℤ) ≤ k0 ∧
      ∀ j ∈ kRange points.length, j < k0 →
        ∀ rj, k_medoids_iterspawn points j (sampler j) dists iteration = some rj →
          diam_max < rj.1 :=
  iterall_first_qual points diam_max sampler dists iteration spawn hpts hit
    hspawn hsampler hq

theorem C2_iterall_first_witness :
    ∃ k0 r, 1 ≤ k0 ∧ k0 ≤ (List.length [(0:ℤ), 1] : ℤ) ∧
      k_medoids_iterspawn [(0:ℤ), 1] k0 (sampler01 k0) absDist 20 = some r ∧
      r.1 ≤ (0:ℤ) ∧
      k_medoids_iterall [(0:ℤ), 1] (0:ℤ) sampler01 absDist 20 = some r ∧
      (r.2.length : ℤ) ≤ k0 ∧
      ∀ j ∈ kRange (List.length [(0:ℤ), 1]), j < k0 →
        ∀ rj, k_medoids_iterspawn [(0:ℤ), 1] j (sampler01 j) absDist 20 = some rj →
          (0:ℤ) < rj.1 :=
  C2_iterall_first [(0:ℤ), 1] (0:ℤ) sampler01 absDist 20 1 (by decide)
    (by decide) (by decide) sampler01_valid
    ⟨2, by decide, (0, [⟨0, [0]⟩, ⟨1, [1]⟩]), by decide, by decide⟩

/-- C6: with a non-negative, symmetric, zero-diagonal cache satisfying the
triangle inequality, a non-negative bound, spawn ≥ 1 and iteration ≥ 1,
`k_medoids_iterall` on a non-empty input terminates with a result whose
diameter is ≤ `diam_max` — at k = n every spawn run has diameter 0, so the
loop (which tries at most the n values k = 1, …, n) must stop. -/
theorem C6_iterall_reaches_bound (points : List α) (diam_max : Q)
    (sampler : ℤ → List (List α)) (dists : α → α → Q) (iteration spawn : ℕ)
    (hpts : points ≠ []) (hit : 1 ≤ iteration) (hspawn : 1 ≤ spawn)
    (hsampler : ValidSampler points spawn sampler) (hdm : 0 ≤ diam_max)
    (hnn : ∀ a b, 0 ≤ dists a b) (hsym : ∀ a b, dists a b = dists b a)
    (hdiag : ∀ a, dists a a = 0)
    (htri : ∀ a b c, dists a b ≤ dists a c + dists c b) :
    ∃ r, k_medoids_iterall points diam_max sampler dists iteration = some r ∧
      r.1 ≤ diam_max := by
  have hn : 1 ≤ points.length := List.length_pos.mpr hpts
  have hnmem : (points.length : ℤ) ∈ kRange points.length :=
    (mem_kRange _ _).mpr ⟨by omega, le_refl _⟩
  obtain ⟨hlenn, hvalidn⟩ := hsampler _ hnmem
  obtain ⟨rn, hrn, hrn0⟩ := iterspawn_full_zero points (sampler _) dists
    iteration hpts hit (by omega) hvalidn hnn hsym hdiag htri
  obtain ⟨k0, r, -, -, -, hrle, hiter, -, -⟩ :=
    iterall_first_qual points diam_max sampler dists iteration spawn hpts hit
      hspawn hsampler
      ⟨(points.length : ℤ), hnmem, rn, hrn, by rw [hrn0]; exact hdm⟩
  exact ⟨r, hiter, hrle⟩

theorem C6_iterall_reaches_bound_witness :
    ∃ r, k_medoids_iterall [(0:ℤ), 1] (1:ℤ) sampler01 absDist 20 = some r ∧
      r.1 ≤ (1:ℤ) :=
  C6_iterall_reaches_bound [(0:ℤ), 1] (1:ℤ) sampler01 absDist 20 1
    (by decide) (by decide) (by decide) sampler01_valid (by decide)
    absDist_nonneg absDist_symm absDist_diag absDist_tri

/-- C10 counterexample: with the all-zero (metric-like) distance cache and
`diam_max = -1`, `k_medoids_iterall` on the two distinct points `[0, 1]`
terminates with diameter 0 but with a single two-member medoid, not with one
medoid per element as the claim states. -/
theorem C10_counterexample :
    k_medoids_iterall [(0:ℤ), 1] (-1 : ℤ) sampler01 zeroDist 20 =
      some (0, [⟨0, [0, 1]⟩]) ∧
    List.length [Medoid.mk (0:ℤ) [(0:ℤ), 1]] ≠ List.length [(0:ℤ), 1] := by
  exact ⟨by decide, by decide⟩

/-- C10 amended: with a non-negative, symmetric, zero-diagonal,
triangle-inequality cache and `diam_max < 0`, `k_medoids_iterall` does not
raise: no k meets the bound, the loop runs through every k = 1, …, n and
returns the k = n spawn result, whose diameter is 0.  (The counterexample
forces dropping "one medoid per element": points at mutual distance 0 merge
into one medoid, so that reading needs strictly positive distances between
distinct points.) -/
theorem C10_iterall_neg_bound (points : List α) (diam_max : Q)
    (sampler : ℤ → List (List α)) (dists : α → α → Q) (iteration spawn : ℕ)
    (hpts : points ≠ []) (hit : 1 ≤ iteration) (hspawn : 1 ≤ spawn)
    (hsampler : ValidSampler points spawn sampler) (hdm : diam_max < 0)
    (hnn : ∀ a b, 0 ≤ dists a b) (hsym : ∀ a b, dists a b = dists b a)
    (hdiag : ∀ a, dists a a = 0)
    (htri : ∀ a b c, dists a b ≤ dists a c + dists c b) :
    ∃ r, k_medoids_iterall points diam_max sampler dists iteration = some r ∧
      r.1 = 0 ∧
      k_medoids_iterspawn points (points.length : ℤ)
        (sampler (points.length : ℤ)) dists iteration = some r := by
  have hn : 1 ≤ points.length := List.length_pos.mpr hpts
  have hruns := sampler_runs points sampler dists iteration spawn hpts hit
    hspawn hsampler
  have hgt : ∀ kk ∈ kRange points.length, ∃ rj,
      k_medoids_iterspawn points kk (sampler kk) dists iteration = some rj ∧
        diam_max < rj.1 := by
    intro kk hkk
    obtain ⟨rj, hrj, s, hsmem, hrun⟩ := hruns kk hkk
    obtain ⟨hk1, -⟩ := (mem_kRange _ _).mp hkk
    have hv := (hsampler kk hkk).2 s hsmem
    have hsne := validSample_nonempty points kk s hv hk1 hpts
    obtain ⟨hgood, -, -, -, hdub⟩ := k_medoids_run_props points kk s dists
      iteration (by omega) hpts hsne hit rj hrun
    have h0 : 0 ≤ rj.1 := diam_nonneg dists points rj.2 rj.1 hgood hpts hdiag hdub
    exact ⟨rj, hrj, lt_of_lt_of_le hdm h0⟩
  have hnmem : (points.length : ℤ) ∈ kRange points.length :=
    (mem_kRange _ _).mpr ⟨by omega, le_refl _⟩
  obtain ⟨hlenn, hvalidn⟩ := hsampler _ hnmem
  obtain ⟨rn, hrn, hrn0⟩ := iterspawn_full_zero points (sampler _) dists
    iteration hpts hit (by omega) hvalidn hnn hsym hdiag htri
  obtain ⟨m, hm⟩ : ∃ m, points.length = m + 1 := ⟨points.length - 1, by omega⟩
  have hsplit : kRange points.length = kRange m ++ [(m : ℤ) + 1] := by
    rw [hm]
    rfl
  have hl1 : ∀ j ∈ kRange m, ∃ rj,
      k_medoids_iterspawn points j (sampler j) dists iteration = some rj ∧
        diam_max < rj.1 := by
    intro j hj
    obtain ⟨hj1, hj2⟩ := (mem_kRange _ _).mp hj
    exact hgt j ((mem_kRange _ _).mpr ⟨hj1, by omega⟩)
  have hkkn : ((m : ℤ) + 1) = (points.length : ℤ) := by omega
  have hloop := iterallGo_last points diam_max sampler dists iteration
    (kRange m) ((m : ℤ) + 1) rn hl1 (by rw [hkkn]; exact hrn)
  rw [← hsplit] at hloop
  refine ⟨rn, ?_, hrn0, hrn⟩
  rw [k_medoids_iterall, if_neg (by simpa [List.isEmpty_iff] using hpts)]
  exact hloop

theorem C10_iterall_neg_bound_witness :
    ∃ r, k_medoids_iterall [(0:ℤ), 1] (-1 : ℤ) sampler01 zeroDist 20 = some r ∧
      r.1 = 0 ∧
      k_medoids_iterspawn [(0:ℤ), 1] (List.length [(0:ℤ), 1] : ℤ)
        (sampler01 (List.length [(0:ℤ), 1] : ℤ)) zeroDist 20 = some r :=
  C10_iterall_neg_bound [(0:ℤ), 1] (-1 : ℤ) sampler01 zeroDist 20 1
    (by decide) (by decide) (by decide) sampler01_valid (by decide)
    zeroDist_nonneg zeroDist_symm zeroDist_diag zeroDist_tri

end Medoids
